import Mathlib

/-!
Verification development for the `ragrep` incremental semantic-index tool.

The Python sources are shallowly embedded:
* Python `float` values are modelled as exact rationals (`ℚ`); `math.sqrt`
  is threaded through as an explicit function parameter `sq`, since the
  code only ever compares the resulting norms with `0` and divides by them.
* Python `int` is modelled as `Int` (character offsets inside the chunker,
  which are provably nonnegative, are modelled as `Nat`).
* The SQLite tables of `vector_store.py` are modelled as Lean lists of rows
  in rowid order; a `with connection:` block is modelled as a transaction
  that either applies all its statements or (on an injected storage
  failure) leaves the committed state untouched, mirroring sqlite3's
  commit/rollback contract.
* `json.dumps`/`json.loads` of the opaque chunk-metadata payload cancel
  each other and are modelled as the identity on an opaque `String`.
-/

namespace RAGrep

/-- Python `float` scalars, modelled exactly. -/
abbrev Scalar := ℚ

/-- The only facts about `math.sqrt` the claims rely on: on nonnegative
inputs it vanishes exactly at `0`. -/
def SqrtSpec (sq : Scalar → Scalar) : Prop :=
  ∀ x : Scalar, 0 ≤ x → (sq x = 0 ↔ x = 0)

/-- `_vector_norm` from `vector_store.py`: `sqrt(sum(v*v for v in vector))`. -/
def vector_norm (sq : Scalar → Scalar) (v : List Scalar) : Scalar :=
  sq (v.foldl (fun acc x => acc + x * x) 0)

/-- The running-sum dot product computed inside `VectorStore.search`:
`for lhs, rhs in zip(vector, query): dot += lhs * rhs`. -/
def dotZip (v q : List Scalar) : Scalar :=
  (v.zip q).foldl (fun acc p => acc + p.1 * p.2) 0

/-- One row of the `files` table / one scanned file record:
`(path, size, mtime_ns)`. -/
structure FileEntry where
  path : String
  size : Int
  mtime_ns : Int
deriving DecidableEq

/-- One chunk dict as produced by the document processor and consumed by
`replace_index` / `apply_file_updates`. -/
structure ChunkInput where
  id : String
  file_path : String
  chunk_index : Int
  start_char : Int
  end_char : Int
  text : String
  metadata : String
deriving DecidableEq

/-- One row of the `chunks` table. -/
structure ChunkRow where
  id : String
  file_path : String
  chunk_index : Int
  start_char : Int
  end_char : Int
  text : String
  metadata_json : String
  embedding : List Scalar
  embedding_dim : Nat
  embedding_norm : Scalar
deriving DecidableEq

/-- The committed contents of the SQLite database: the `metadata`,
`files` and `chunks` tables, rows listed in rowid order. -/
structure StoreState where
  metadata : List (String × String)
  files : List FileEntry
  chunks : List ChunkRow
deriving DecidableEq

/-- `_get_metadata()[key]` — the `key` column is the primary key, so the
first matching row is the only one. -/
def metaGet (md : List (String × String)) (k : String) : Option String :=
  (md.find? (fun p => decide (p.1 = k))).map (·.2)

/-- `_set_metadata`: `INSERT ... ON CONFLICT(key) DO UPDATE` — update the
existing row in place, else append a fresh row. -/
def metaSet (md : List (String × String)) (k v : String) : List (String × String) :=
  if md.any (fun p => decide (p.1 = k)) then
    md.map (fun p => if p.1 = k then (k, v) else p)
  else
    md ++ [(k, v)]

/-- The key set of the Python dict `{entry["path"]: ... for entry in files}`
(duplicate paths collapse; only the set matters to the planner, which
sorts every path list it returns). -/
def filePaths (l : List FileEntry) : List String :=
  (l.map (·.path)).dedup

/-- The `(size, mtime_ns)` value the Python dict associates to `p`
(later entries overwrite earlier ones, hence the last matching row). -/
def fileSig (l : List FileEntry) (p : String) : Option (Int × Int) :=
  ((l.filter (fun e => decide (e.path = p))).getLast?).map (fun e => (e.size, e.mtime_ns))

/-- Python's `sorted` on a list of distinct strings. -/
def sortStrings (l : List String) : List String :=
  l.mergeSort (fun a b => decide (a ≤ b))

/-- The dict returned by `VectorStore.plan_index_update`. -/
structure IndexPlan where
  needs_index : Bool
  full_rebuild : Bool
  reason : String
  new_files : List String
  updated_files : List String
  removed_files : List String
deriving DecidableEq

/-- The full-rebuild dict literal that `plan_index_update` returns in each
of its early-exit branches (they differ only in the reason string). -/
def rebuildPlan (reason : String) (curKeys dbKeys : List String) : IndexPlan :=
  { needs_index := true
    full_rebuild := true
    reason := reason
    new_files := sortStrings curKeys
    updated_files := []
    removed_files := sortStrings (dbKeys.filter (fun p => decide (p ∉ curKeys))) }

/-- `VectorStore.plan_index_update`, embedded statement by statement.
`root_path` stands for `str(root_path)`. -/
def plan_index_update (st : StoreState) (root_path : String) (files : List FileEntry)
    (embedding_model : String) (chunk_size chunk_overlap : Int) (force : Bool) : IndexPlan :=
  let metadata := st.metadata
  let dbKeys := filePaths st.files
  let curKeys := filePaths files
  if force then rebuildPlan "forced reindex" curKeys dbKeys
  else if (metaGet metadata "indexed_root").isNone then
    rebuildPlan "index has not been created yet" curKeys dbKeys
  else if metaGet metadata "indexed_root" ≠ some root_path then
    rebuildPlan "indexed root changed" curKeys dbKeys
  else if metaGet metadata "embedding_model" ≠ some embedding_model then
    rebuildPlan "embedding model changed" curKeys dbKeys
  else if metaGet metadata "chunk_size" ≠ some (toString chunk_size) then
    rebuildPlan "chunk size changed" curKeys dbKeys
  else if metaGet metadata "chunk_overlap" ≠ some (toString chunk_overlap) then
    rebuildPlan "chunk overlap changed" curKeys dbKeys
  else
    let new_files := sortStrings (curKeys.filter (fun p => decide (p ∉ dbKeys)))
    let removed_files := sortStrings (dbKeys.filter (fun p => decide (p ∉ curKeys)))
    let updated_files := sortStrings (curKeys.filter
      (fun p => decide (p ∈ dbKeys ∧ fileSig files p ≠ fileSig st.files p)))
    let reasons : List String :=
      (if new_files ≠ [] then ["new files detected"] else []) ++
      (if updated_files ≠ [] then ["updated files detected"] else []) ++
      (if removed_files ≠ [] then ["files removed"] else [])
    { needs_index := !reasons.isEmpty
      full_rebuild := false
      reason := if reasons.isEmpty then "index is current" else String.intercalate ", " reasons
      new_files := new_files
      updated_files := updated_files
      removed_files := removed_files }

/-! ## Chunker (`document_processor.py`, `DocumentProcessor.chunk_text`) -/

/-- One chunk produced by `DocumentProcessor.chunk_text`.  The Python code
stores `chunk_index`, `start_char`, `end_char` inside the chunk's metadata
dict; they are modelled as named fields (the pass-through base metadata is
merely copied and is omitted). -/
structure Chunk where
  text : List Char
  chunk_index : Nat
  start_char : Nat
  end_char : Nat
deriving DecidableEq

/-- The `while start < len(text)` loop of `chunk_text`.  The loop variable
`start` strictly increases by `chunk_size - chunk_overlap ≥ 1` whenever
`chunk_overlap < chunk_size`, so `text.length + 1` units of fuel always
suffice and the fuel-out branch is unreachable in that regime (for
`chunk_overlap ≥ chunk_size` the Python loop does not terminate). -/
def chunk_text_go (chunk_size chunk_overlap : Nat) (text : List Char) :
    Nat → Nat → List Chunk → List Chunk
  | 0, _, chunks => chunks
  | fuel + 1, start, chunks =>
    if start < text.length then
      let e := start + chunk_size
      let piece := (text.drop start).take chunk_size
      let chunks' := chunks ++
        [{ text := piece, chunk_index := chunks.length, start_char := start, end_char := e }]
      let start' := e - chunk_overlap
      if start' ≥ text.length then chunks'
      else chunk_text_go chunk_size chunk_overlap text fuel start' chunks'
    else chunks

/-- `DocumentProcessor.chunk_text` on `text`, with configuration
`(chunk_size, chunk_overlap)`. -/
def chunk_text (chunk_size chunk_overlap : Nat) (text : List Char) : List Chunk :=
  chunk_text_go chunk_size chunk_overlap text (text.length + 1) 0 []

/-! ## Vector store mutations (`vector_store.py`) -/

/-- The exceptions relevant to the store: `ValueError` raised by the
explicit precondition checks, and a storage (I/O / transaction) failure
raised by SQLite itself. -/
inductive StoreErr
  | valueError
  | storageError
deriving DecidableEq

/-- The row inserted into `chunks` for one `(chunk, vector)` pair:
`_pack_vector` round-trips through `_unpack_vector`, so the packed blob is
modelled as the vector itself, alongside `len(vector)` and
`_vector_norm(vector)`. -/
def mkChunkRow (sq : Scalar → Scalar) (c : ChunkInput) (vector : List Scalar) : ChunkRow :=
  { id := c.id
    file_path := c.file_path
    chunk_index := c.chunk_index
    start_char := c.start_char
    end_char := c.end_char
    text := c.text
    metadata_json := c.metadata
    embedding := vector
    embedding_dim := vector.length
    embedding_norm := vector_norm sq vector }

/-- A `with self.connection:` block: the statements run in order and either
all commit, or — if the storage layer fails at the `failAt`-th statement —
nothing at all is committed (sqlite3 rolls the transaction back).  `failAt`
is an injected failure oracle; `none` means no storage failure occurs. -/
def runTxn (st : StoreState) (ops : List (StoreState → StoreState)) (failAt : Option Nat) :
    StoreState × Option StoreErr :=
  match failAt with
  | some k =>
    if k < ops.length then (st, some StoreErr.storageError)
    else (ops.foldl (fun s f => f s) st, none)
  | none => (ops.foldl (fun s f => f s) st, none)

/-- The list of SQL statements executed inside `replace_index`'s
transaction (the two `executemany` calls are guarded by `if files:` /
`if chunks:` exactly as in the source). -/
def replaceIndexOps (sq : Scalar → Scalar) (root_path : String) (files : List FileEntry)
    (chunks : List ChunkInput) (embeddings : List (List Scalar))
    (embedding_model : String) (chunk_size chunk_overlap : Int) (now : String) :
    List (StoreState → StoreState) :=
  [fun s => { s with chunks := [] },
   fun s => { s with files := [] }] ++
  (if files ≠ [] then [fun s => { s with files := s.files ++ files }] else []) ++
  (if chunks ≠ [] then
    [fun s => { s with chunks :=
        s.chunks ++ ((chunks.zip embeddings).map (fun p => mkChunkRow sq p.1 p.2)) }]
   else []) ++
  [fun s => { s with metadata := metaSet s.metadata "indexed_root" root_path },
   fun s => { s with metadata := metaSet s.metadata "embedding_model" embedding_model },
   fun s => { s with metadata := metaSet s.metadata "chunk_size" (toString chunk_size) },
   fun s => { s with metadata := metaSet s.metadata "chunk_overlap" (toString chunk_overlap) },
   fun s => { s with metadata := metaSet s.metadata "indexed_at" now }]

/-- `VectorStore.replace_index`.  `now` stands for the
`datetime.now(timezone.utc).isoformat()` timestamp.  Returns the committed
state after the call together with the raised exception, if any. -/
def replace_index (sq : Scalar → Scalar) (st : StoreState) (root_path : String)
    (files : List FileEntry) (chunks : List ChunkInput) (embeddings : List (List Scalar))
    (embedding_model : String) (chunk_size chunk_overlap : Int) (now : String)
    (failAt : Option Nat) : StoreState × Option StoreErr :=
  if chunks.length ≠ embeddings.length then (st, some StoreErr.valueError)
  else
    runTxn st
      (replaceIndexOps sq root_path files chunks embeddings embedding_model
        chunk_size chunk_overlap now)
      failAt

/-- The upsert `INSERT INTO files ... ON CONFLICT(path) DO UPDATE` for one
changed path, using the dict `file_lookup = {entry["path"]: entry}`
(`fileSig` is exactly that last-write-wins lookup).  The conflicting row is
updated in place, a fresh row is appended.  The `none` case is unreachable:
`apply_file_updates` has already raised on missing paths. -/
def upsertFileRow (all_files : List FileEntry) (fl : List FileEntry) (p : String) :
    List FileEntry :=
  match fileSig all_files p with
  | none => fl
  | some sig =>
    if fl.any (fun f => decide (f.path = p)) then
      fl.map (fun f =>
        if f.path = p then { path := p, size := sig.1, mtime_ns := sig.2 } else f)
    else
      fl ++ [{ path := p, size := sig.1, mtime_ns := sig.2 }]

def upsertFile (all_files : List FileEntry) (s : StoreState) (p : String) : StoreState :=
  { s with files := upsertFileRow all_files s.files p }

/-- `VectorStore.apply_file_updates`, embedded statement by statement.
No storage-failure oracle is threaded here (no claim needs it); the
`ValueError` precondition checks happen before the transaction exactly as
in the source. -/
def apply_file_updates (sq : Scalar → Scalar) (st : StoreState) (root_path : String)
    (all_files : List FileEntry) (chunks : List ChunkInput) (embeddings : List (List Scalar))
    (new_files updated_files removed_files : List String)
    (embedding_model : String) (chunk_size chunk_overlap : Int) (now : String) :
    StoreState × Option StoreErr :=
  if chunks.length ≠ embeddings.length then (st, some StoreErr.valueError)
  else
    let changed_paths := sortStrings ((new_files ++ updated_files).dedup)
    let missing_paths := changed_paths.filter (fun p => (fileSig all_files p).isNone)
    if missing_paths ≠ [] then (st, some StoreErr.valueError)
    else
      let s1 :=
        if removed_files ≠ [] then
          { st with
            chunks := st.chunks.filter (fun c => decide (c.file_path ∉ removed_files)),
            files := st.files.filter (fun f => decide (f.path ∉ removed_files)) }
        else st
      let s2 :=
        if changed_paths ≠ [] then
          let sDel := { s1 with
            chunks := s1.chunks.filter (fun c => decide (c.file_path ∉ changed_paths)) }
          changed_paths.foldl (upsertFile all_files) sDel
        else s1
      let s3 :=
        if chunks ≠ [] then
          { s2 with chunks :=
              s2.chunks ++ ((chunks.zip embeddings).map (fun p => mkChunkRow sq p.1 p.2)) }
        else s2
      let md := metaSet (metaSet (metaSet (metaSet (metaSet s3.metadata
        "indexed_root" root_path)
        "embedding_model" embedding_model)
        "chunk_size" (toString chunk_size))
        "chunk_overlap" (toString chunk_overlap))
        "indexed_at" now
      let s4 := { s3 with metadata := md }
      (s4, none)

/-! ## Similarity search (`VectorStore.search`) -/

/-- One entry of the result list returned by `search`. -/
structure SearchMatch where
  id : String
  text : String
  metadata : String
  score : Scalar
  distance : Scalar
deriving DecidableEq

/-- The body of `search`'s row loop: `None` mirrors a `continue`
(mismatched dimension, or falsy/zero stored norm). -/
def scoreRow (qnorm : Scalar) (query : List Scalar) (row : ChunkRow) : Option SearchMatch :=
  if row.embedding_dim ≠ query.length then none
  else if row.embedding_norm = 0 then none
  else
    let dot := dotZip row.embedding query
    let score := dot / (qnorm * row.embedding_norm)
    some
      { id := row.id
        text := row.text
        metadata := row.metadata_json
        score := score
        distance := 1 - score }

/-- The unsorted `matches` list built by `search`'s `for row in rows` loop
(appends preserve table row order). -/
def searchCandidates (sq : Scalar → Scalar) (st : StoreState) (query : List Scalar) :
    List SearchMatch :=
  st.chunks.filterMap (scoreRow (vector_norm sq query) query)

/-- `VectorStore.search`: `matches.sort(key=score, reverse=True)` is
Python's stable descending sort, i.e. the stable `mergeSort` under
`a.score ≥ b.score`; `matches[:limit]` is `take`. -/
def search (sq : Scalar → Scalar) (st : StoreState) (query : List Scalar) (limit : Int) :
    List SearchMatch :=
  if limit ≤ 0 then []
  else
    let qnorm := vector_norm sq query
    if qnorm = 0 then []
    else
      let matchList := st.chunks.filterMap (scoreRow qnorm query)
      (matchList.mergeSort (fun a b => decide (b.score ≤ a.score))).take limit.toNat

/-! ## Legacy-storage migration (`VectorStore.__init__`, lines 44-49) -/

/-- A filesystem node: directory bit plus an abstract payload standing for
the whole subtree's data (enough to observe deletion vs. renaming). -/
structure FsNode where
  is_dir : Bool
  payload : Nat
deriving DecidableEq

/-- A finite filesystem: paths bound to nodes. -/
abbrev Fs := List (String × FsNode)

def fsLookup (fs : Fs) (p : String) : Option FsNode :=
  (fs.find? (fun e => decide (e.1 = p))).map (·.2)

/-- `shutil.rmtree(p)`: the tree at `p` is gone. -/
def fsRemove (fs : Fs) (p : String) : Fs :=
  fs.filter (fun e => decide (e.1 ≠ p))

/-- `Path.rename`: the node at `old` is re-bound to `new`. -/
def fsRename (fs : Fs) (old new : String) : Fs :=
  match fsLookup fs old with
  | none => fs
  | some node => (fs.filter (fun e => decide (e.1 ≠ old ∧ e.1 ≠ new))) ++ [(new, node)]

/-- The migration step of `VectorStore.__init__`: if the storage path holds
a directory (the legacy layout), delete any existing `<name>.legacy` tree
and rename the directory to `<name>.legacy`. -/
def migrate_legacy (fs : Fs) (db_path : String) : Fs :=
  if (fsLookup fs db_path).any (·.is_dir) then
    let legacy_path := db_path ++ ".legacy"
    let fs1 := if (fsLookup fs legacy_path).isSome then fsRemove fs legacy_path else fs
    fsRename fs1 db_path legacy_path
  else fs

/-! ## Orchestrator (`rag_system.py`, `RAGrep.index`)

`DocumentProcessor.discover_path` and `DocumentProcessor.process_files`
are called by `RAGrep.index` but are absent from the sources (only this
caller exists).  Modelled from the spec: the Catalog Scanner enumerates
eligible files under the root into sorted `FileRecord`s, and the Chunker
turns a list of file paths into chunk dicts.  The embedding therefore
takes the discovery result (`file_records`, `root_path`) and the chunk
production (`process : List String → List ChunkInput`) as explicit
oracles, quantified over in the theorems. -/

/-- The dict returned by `RAGrep.index`. -/
structure IndexResult where
  indexed : Bool
  reason : String
  files : Nat
  chunks : Nat
  chunks_indexed : Nat
  indexed_files : Nat
  new_files : List String
  updated_files : List String
  removed_files : List String
  full_rebuild : Bool
deriving DecidableEq

/-- The outcome of one `RAGrep.index` call: the committed store state, the
result dict (`none` when an exception was raised), and whether
`embedder.embed_texts` was invoked. -/
structure IndexOutcome where
  state : StoreState
  result : Option IndexResult
  embedder_called : Bool

/-- `stats["total_chunks"]` / `stats["total_files"]` (`SELECT COUNT(*)`). -/
def totalChunks (st : StoreState) : Nat := st.chunks.length

def totalFiles (st : StoreState) : Nat := st.files.length

/-- `RAGrep.index`, embedded over the discovery and chunking oracles.
`embedQ` is the embedding gateway (`embed_texts` maps it over the texts);
it is invoked only when the text list is non-empty, exactly as in
`embeddings = self.embedder.embed_texts(texts) if texts else []`. -/
def ragIndex (sq : Scalar → Scalar) (st : StoreState) (root_path : String)
    (file_records : List FileEntry) (process : List String → List ChunkInput)
    (embedQ : String → List Scalar) (embedding_model : String)
    (chunk_size chunk_overlap : Int) (now : String) (force : Bool) : IndexOutcome :=
  let plan := plan_index_update st root_path file_records embedding_model
    chunk_size chunk_overlap force
  if plan.needs_index = false then
    { state := st
      result := some
        { indexed := false
          reason := plan.reason
          files := file_records.length
          chunks := totalChunks st
          chunks_indexed := 0
          indexed_files := 0
          new_files := []
          updated_files := []
          removed_files := []
          full_rebuild := false }
      embedder_called := false }
  else
    let paths := if plan.full_rebuild then file_records.map (·.path)
                 else plan.new_files ++ plan.updated_files
    let chunks := process paths
    let texts := chunks.map (·.text)
    let embeddings := texts.map embedQ
    let step :=
      if plan.full_rebuild then
        replace_index sq st root_path file_records chunks embeddings embedding_model
          chunk_size chunk_overlap now none
      else
        apply_file_updates sq st root_path file_records chunks embeddings
          plan.new_files plan.updated_files plan.removed_files embedding_model
          chunk_size chunk_overlap now
    match step with
    | (st', some _) => { state := st', result := none, embedder_called := !texts.isEmpty }
    | (st', none) =>
      { state := st'
        result := some
          { indexed := true
            reason := plan.reason
            files := file_records.length
            chunks := totalChunks st'
            chunks_indexed := chunks.length
            indexed_files := plan.new_files.length + plan.updated_files.length
            new_files := plan.new_files
            updated_files := plan.updated_files
            removed_files := plan.removed_files
            full_rebuild := plan.full_rebuild }
        embedder_called := !texts.isEmpty }

/-! ## Chunker lemmas -/

/-- Facts true of every chunk `chunk_text` ever appends: its text is the
slice `text[start_char : start_char + chunk_size]`, its start lies inside
the text, and its recorded `end_char` is `start_char + chunk_size`. -/
def ChunkWF (chunk_size : Nat) (text : List Char) (c : Chunk) : Prop :=
  c.text = (text.drop c.start_char).take chunk_size ∧
  c.start_char < text.length ∧
  c.end_char = c.start_char + chunk_size

theorem chunk_text_go_wf (chunk_size chunk_overlap : Nat) (text : List Char) :
    ∀ (fuel start : Nat) (acc : List Chunk),
      (∀ c ∈ acc, ChunkWF chunk_size text c) →
      ∀ c ∈ chunk_text_go chunk_size chunk_overlap text fuel start acc,
        ChunkWF chunk_size text c := by
  intro fuel
  induction fuel with
  | zero =>
    intro start acc hacc c hc
    simp only [chunk_text_go] at hc
    exact hacc c hc
  | succ n ih =>
    intro start acc hacc c hc
    simp only [chunk_text_go] at hc
    by_cases h : start < text.length
    · rw [if_pos h] at hc
      have hacc' : ∀ c ∈ acc ++
          [{ text := (text.drop start).take chunk_size, chunk_index := acc.length,
             start_char := start, end_char := start + chunk_size : Chunk }],
          ChunkWF chunk_size text c := by
        intro c hc
        rcases List.mem_append.1 hc with h1 | h1
        · exact hacc c h1
        · rcases List.mem_singleton.1 h1 with rfl
          exact ⟨rfl, h, rfl⟩
      by_cases h2 : start + chunk_size - chunk_overlap ≥ text.length
      · rw [if_pos h2] at hc
        exact hacc' c hc
      · rw [if_neg h2] at hc
        exact ih _ _ hacc' c hc
    · rw [if_neg h] at hc
      exact hacc c hc

theorem chunk_text_go_cover (chunk_size chunk_overlap : Nat) (text : List Char)
    (hov : chunk_overlap < chunk_size) :
    ∀ (fuel start : Nat) (acc : List Chunk),
      text.length ≤ start + fuel * (chunk_size - chunk_overlap) →
      (∀ i, i < text.length → i < start →
        ∃ c ∈ acc, c.start_char ≤ i ∧ i < c.start_char + c.text.length) →
      ∀ i, i < text.length →
        ∃ c ∈ chunk_text_go chunk_size chunk_overlap text fuel start acc,
          c.start_char ≤ i ∧ i < c.start_char + c.text.length := by
  intro fuel
  induction fuel with
  | zero =>
    intro start acc hfuel hacc i hi
    simp only [chunk_text_go]
    exact hacc i hi (by omega)
  | succ n ih =>
    intro start acc hfuel hacc i hi
    simp only [chunk_text_go]
    have hnewlen :
        ({ text := (text.drop start).take chunk_size, chunk_index := acc.length,
           start_char := start, end_char := start + chunk_size : Chunk }).text.length =
        min chunk_size (text.length - start) := by
      simp [List.length_take, List.length_drop]
    by_cases h : start < text.length
    · rw [if_pos h]
      have hcov' : ∀ j, j < text.length → j < start + chunk_size - chunk_overlap →
          ∃ c ∈ acc ++
            [{ text := (text.drop start).take chunk_size, chunk_index := acc.length,
               start_char := start, end_char := start + chunk_size : Chunk }],
            c.start_char ≤ j ∧ j < c.start_char + c.text.length := by
        intro j hj hj2
        by_cases hjs : j < start
        · obtain ⟨c, hc, hcov⟩ := hacc j hj hjs
          exact ⟨c, List.mem_append.2 (Or.inl hc), hcov⟩
        · refine ⟨_, List.mem_append.2 (Or.inr (List.mem_singleton.2 rfl)), ?_⟩
          rw [hnewlen]
          show start ≤ j ∧ j < start + min chunk_size (text.length - start)
          omega
      by_cases h2 : start + chunk_size - chunk_overlap ≥ text.length
      · rw [if_pos h2]
        exact hcov' i hi (by omega)
      · rw [if_neg h2]
        refine ih (start + chunk_size - chunk_overlap) _ ?_ hcov' i hi
        have hmul : (n + 1) * (chunk_size - chunk_overlap) =
            n * (chunk_size - chunk_overlap) + (chunk_size - chunk_overlap) :=
          Nat.succ_mul _ _
        omega
    · rw [if_neg h]
      exact hacc i hi (by omega)

theorem chunk_text_go_chain (chunk_size chunk_overlap : Nat) (text : List Char)
    (hov : chunk_overlap < chunk_size) :
    ∀ (fuel start : Nat) (acc : List Chunk),
      acc.Chain' (fun a b => b.start_char = a.start_char + (chunk_size - chunk_overlap)) →
      (∀ c, acc.getLast? = some c →
        start = c.start_char + (chunk_size - chunk_overlap)) →
      (chunk_text_go chunk_size chunk_overlap text fuel start acc).Chain'
        (fun a b => b.start_char = a.start_char + (chunk_size - chunk_overlap)) := by
  intro fuel
  induction fuel with
  | zero =>
    intro start acc hchain _
    simpa only [chunk_text_go] using hchain
  | succ n ih =>
    intro start acc hchain hlast
    simp only [chunk_text_go]
    by_cases h : start < text.length
    · rw [if_pos h]
      have hchain' : (acc ++
          [{ text := (text.drop start).take chunk_size, chunk_index := acc.length,
             start_char := start, end_char := start + chunk_size : Chunk }]).Chain'
          (fun a b => b.start_char = a.start_char + (chunk_size - chunk_overlap)) := by
        rw [List.chain'_append]
        refine ⟨hchain, List.chain'_singleton _, ?_⟩
        intro x hx y hy
        simp only [List.head?_cons, Option.mem_def, Option.some.injEq] at hy
        subst hy
        show start = x.start_char + (chunk_size - chunk_overlap)
        exact hlast x hx
      have hlast' : ∀ c, (acc ++
          [{ text := (text.drop start).take chunk_size, chunk_index := acc.length,
             start_char := start, end_char := start + chunk_size : Chunk }]).getLast? = some c →
          start + chunk_size - chunk_overlap =
            c.start_char + (chunk_size - chunk_overlap) := by
        intro c hc
        rw [List.getLast?_concat] at hc
        cases hc
        show start + chunk_size - chunk_overlap = start + (chunk_size - chunk_overlap)
        omega
      by_cases h2 : start + chunk_size - chunk_overlap ≥ text.length
      · rw [if_pos h2]
        exact hchain'
      · rw [if_neg h2]
        exact ih _ _ hchain' hlast'
    · rw [if_neg h]
      exact hchain

/-! ## Claims C3, C4, C10 — the chunker -/

/-- C3, counterexample to the claim as stated: with `chunk_size = 5`,
`chunk_overlap = 3` and the six-character text `"abcdef"`, the produced
windows are `"abcde"` at 0, `"cdef"` at 2 and `"ef"` at 4; the second and
third consecutive windows share only `2 + 4 - 4 = 2` characters, not
`chunk_overlap = 3`, even though the earlier of the two is not the final
window. -/
theorem C3_counterexample :
    (3 : Nat) < 5 ∧
    chunk_text 5 3 (String.toList "abcdef") =
      [⟨['a','b','c','d','e'], 0, 0, 5⟩, ⟨['c','d','e','f'], 1, 2, 7⟩,
       ⟨['e','f'], 2, 4, 9⟩] ∧
    ¬ ∀ p ∈ ((chunk_text 5 3 (String.toList "abcdef")).zip
          (chunk_text 5 3 (String.toList "abcdef")).tail),
        p.1.start_char + p.1.text.length - p.2.start_char = 3 := by
  decide

/-- C3 (amended): for `0 ≤ chunk_overlap < chunk_size`, the windows
returned by `chunk_text` are slices of the text whose union exactly covers
`[0, len(text))`, each has length at most `chunk_size`, consecutive
windows start exactly `chunk_size - chunk_overlap` positions apart — hence
consecutive windows overlap by exactly `chunk_overlap` characters whenever
the earlier window has full length `chunk_size` (only tail windows may be
shorter). -/
theorem C3_window_properties (chunk_size chunk_overlap : Nat) (text : List Char)
    (hov : chunk_overlap < chunk_size) :
    (∀ c ∈ chunk_text chunk_size chunk_overlap text,
        c.text = (text.drop c.start_char).take chunk_size ∧
        c.text.length ≤ chunk_size ∧
        c.start_char + c.text.length ≤ text.length) ∧
    (∀ i, i < text.length → ∃ c ∈ chunk_text chunk_size chunk_overlap text,
        c.start_char ≤ i ∧ i < c.start_char + c.text.length) ∧
    (chunk_text chunk_size chunk_overlap text).Chain'
        (fun a b => b.start_char = a.start_char + (chunk_size - chunk_overlap)) ∧
    (chunk_text chunk_size chunk_overlap text).Chain'
        (fun a b => a.text.length = chunk_size →
          a.start_char + a.text.length - b.start_char = chunk_overlap) := by
  have hwf := chunk_text_go_wf chunk_size chunk_overlap text (text.length + 1) 0 []
    (by intro c hc; simp at hc)
  have hchain := chunk_text_go_chain chunk_size chunk_overlap text hov
    (text.length + 1) 0 [] List.chain'_nil (by intro c hc; simp at hc)
  refine ⟨?_, ?_, hchain, ?_⟩
  · intro c hc
    obtain ⟨ht, hs, _⟩ := hwf c hc
    have hlen : c.text.length = min chunk_size (text.length - c.start_char) := by
      rw [ht]; simp [List.length_take, List.length_drop]
    exact ⟨ht, by omega, by omega⟩
  · have hd : 1 ≤ chunk_size - chunk_overlap := by omega
    have hmul := Nat.mul_le_mul_left (text.length + 1) hd
    exact chunk_text_go_cover chunk_size chunk_overlap text hov (text.length + 1) 0 []
      (by omega) (by intro i _ h2; exact absurd h2 (Nat.not_lt_zero i))
  · refine hchain.imp ?_
    intro a b hr hlen
    omega

/-- C3, witness for the amended theorem at a concrete instance. -/
theorem C3_witness :
    (3 : Nat) < 5 ∧
    (chunk_text 5 3 (String.toList "ab")).Chain'
      (fun a b => b.start_char = a.start_char + (5 - 3)) :=
  ⟨by decide, (C3_window_properties 5 3 (String.toList "ab") (by decide)).2.2.1⟩

/-- C4, counterexample to the claim as stated: with `chunk_size = 5`,
`chunk_overlap = 3`, the four-character text `"abcd"` is no longer than
`chunk_size`, yet `chunk_text` returns two chunks: after emitting the full
text as its first window it continues from `start = 5 - 3 = 2 < 4` and
emits `"cd"` again. -/
theorem C4_counterexample :
    (3 : Nat) < 5 ∧ (String.toList "abcd").length ≤ 5 ∧
    (String.toList "abcd") ≠ [] ∧
    (chunk_text 5 3 (String.toList "abcd")).length = 2 := by
  decide

/-- The loop only ever appends to its chunk accumulator, so the result is
never shorter than the accumulator. -/
theorem chunk_text_go_len_mono (chunk_size chunk_overlap : Nat) (text : List Char) :
    ∀ fuel start acc,
      acc.length ≤ (chunk_text_go chunk_size chunk_overlap text fuel start acc).length := by
  intro fuel
  induction fuel with
  | zero =>
    intro start acc
    exact le_rfl
  | succ f ih =>
    intro start acc
    simp only [chunk_text_go]
    split
    · split
      · simp
      · exact le_trans (by simp) (ih _ _)
    · exact le_rfl

/-- Every loop entry with `start < len(text)` and fuel left appends at
least one chunk. -/
theorem chunk_text_go_len_succ (chunk_size chunk_overlap : Nat) (text : List Char)
    (fuel start : Nat) (acc : List Chunk) (hs : start < text.length) (hf : 1 ≤ fuel) :
    acc.length + 1 ≤ (chunk_text_go chunk_size chunk_overlap text fuel start acc).length := by
  obtain ⟨f, rfl⟩ : ∃ f, fuel = f + 1 := ⟨fuel - 1, by omega⟩
  simp only [chunk_text_go]
  rw [if_pos hs]
  split
  · simp
  · exact le_trans (by simp) (chunk_text_go_len_mono chunk_size chunk_overlap text f _ _)

/-- C4 (amended): for `0 ≤ chunk_overlap < chunk_size`, empty text yields
zero chunks, a non-empty text yields exactly one chunk when its length is
at most `chunk_size - chunk_overlap`, and any text of length in
`(chunk_size - chunk_overlap, chunk_size]` yields more than one chunk:
after emitting the whole text as its first window the loop restarts at
`chunk_size - chunk_overlap < len(text)` and emits at least one more. -/
theorem C4_empty_and_singleton (chunk_size chunk_overlap : Nat) (text : List Char)
    (hov : chunk_overlap < chunk_size) :
    (text.length = 0 → chunk_text chunk_size chunk_overlap text = []) ∧
    (0 < text.length → text.length ≤ chunk_size - chunk_overlap →
      (chunk_text chunk_size chunk_overlap text).length = 1) ∧
    (chunk_size - chunk_overlap < text.length → text.length ≤ chunk_size →
      2 ≤ (chunk_text chunk_size chunk_overlap text).length) := by
  refine ⟨?_, ?_, ?_⟩
  · intro h
    have htext : text = [] := List.eq_nil_of_length_eq_zero h
    subst htext
    simp [chunk_text, chunk_text_go]
  · intro h1 h2
    show (chunk_text_go chunk_size chunk_overlap text (text.length + 1) 0 []).length = 1
    simp only [chunk_text_go]
    rw [if_pos h1, if_pos (by omega : 0 + chunk_size - chunk_overlap ≥ text.length)]
    rfl
  · intro h1 h2
    show 2 ≤ (chunk_text_go chunk_size chunk_overlap text (text.length + 1) 0 []).length
    simp only [chunk_text_go]
    rw [if_pos (show 0 < text.length by omega),
      if_neg (show ¬ (0 + chunk_size - chunk_overlap ≥ text.length) by omega)]
    refine le_trans ?_ (chunk_text_go_len_succ chunk_size chunk_overlap text text.length
      (0 + chunk_size - chunk_overlap) _ (by omega) (by omega))
    simp

/-- C4, witness for the amended theorem at concrete instances: `"ab"` for
the single-chunk clause and `"abcd"` for the multi-chunk clause. -/
theorem C4_witness :
    ((3 : Nat) < 5 ∧ 0 < (String.toList "ab").length ∧
      (String.toList "ab").length ≤ 5 - 3 ∧
      5 - 3 < (String.toList "abcd").length ∧ (String.toList "abcd").length ≤ 5) ∧
    (chunk_text 5 3 (String.toList "ab")).length = 1 ∧
    2 ≤ (chunk_text 5 3 (String.toList "abcd")).length :=
  ⟨by decide,
    (C4_empty_and_singleton 5 3 (String.toList "ab") (by decide)).2.1 (by decide) (by decide),
    (C4_empty_and_singleton 5 3 (String.toList "abcd") (by decide)).2.2
      (by decide) (by decide)⟩

/-- C10 (confirmed): every chunk records `end_char = start_char +
chunk_size`; consequently, whenever the window is truncated by the end of
the text (`text.length < start_char + chunk_size`), the recorded
`end_char` exceeds `len(text)` and differs from the end position of the
chunk's actual text. -/
theorem C10_end_char_recorded (chunk_size chunk_overlap : Nat) (text : List Char)
    (_hov : chunk_overlap < chunk_size) :
    ∀ c ∈ chunk_text chunk_size chunk_overlap text,
      c.end_char = c.start_char + chunk_size ∧
      (text.length < c.start_char + chunk_size →
        text.length < c.end_char ∧ c.end_char ≠ c.start_char + c.text.length) := by
  intro c hc
  obtain ⟨ht, hs, he⟩ := chunk_text_go_wf chunk_size chunk_overlap text
    (text.length + 1) 0 [] (by intro c hc; simp at hc) c hc
  have hlen : c.text.length = min chunk_size (text.length - c.start_char) := by
    rw [ht]; simp [List.length_take, List.length_drop]
  exact ⟨he, fun hgt => ⟨by omega, by omega⟩⟩

/-- C10, witness: the final chunk of `chunk_text 5 3 "abcdef"` records
`end_char = 9 > 6`. -/
theorem C10_witness :
    ((3 : Nat) < 5 ∧ (⟨['e','f'], 2, 4, 9⟩ : Chunk) ∈ chunk_text 5 3 (String.toList "abcdef")) ∧
    ((⟨['e','f'], 2, 4, 9⟩ : Chunk).end_char = (⟨['e','f'], 2, 4, 9⟩ : Chunk).start_char + 5 ∧
      ((String.toList "abcdef").length < (⟨['e','f'], 2, 4, 9⟩ : Chunk).start_char + 5 →
        (String.toList "abcdef").length < (⟨['e','f'], 2, 4, 9⟩ : Chunk).end_char ∧
        (⟨['e','f'], 2, 4, 9⟩ : Chunk).end_char ≠
          (⟨['e','f'], 2, 4, 9⟩ : Chunk).start_char + (⟨['e','f'], 2, 4, 9⟩ : Chunk).text.length)) :=
  ⟨by decide, C10_end_char_recorded 5 3 (String.toList "abcdef") (by decide) _ (by decide)⟩

/-! ## Claim C8 — legacy-storage migration -/

theorem fsLookup_filter_keep (l : Fs) (P : String × FsNode → Bool) (q : String)
    (h : ∀ n, P (q, n) = true) : fsLookup (l.filter P) q = fsLookup l q := by
  induction l with
  | nil => rfl
  | cons e tl ih =>
    by_cases hq : e.1 = q
    · have hPe : P e = true := by
        have he : e = (q, e.2) := by
          cases e; simp_all
        rw [he]; exact h e.2
      unfold fsLookup
      rw [List.filter_cons, if_pos hPe, List.find?_cons_of_pos _ (by simpa using hq),
        List.find?_cons_of_pos _ (by simpa using hq)]
    · by_cases hPe : P e = true
      · unfold fsLookup
        rw [List.filter_cons, if_pos hPe, List.find?_cons_of_neg _ (by simpa using hq),
          List.find?_cons_of_neg _ (by simpa using hq)]
        exact ih
      · unfold fsLookup
        rw [List.filter_cons, if_neg hPe, List.find?_cons_of_neg _ (by simpa using hq)]
        exact ih

theorem fsLookup_filter_drop (l : Fs) (P : String × FsNode → Bool) (q : String)
    (h : ∀ n, P (q, n) = false) : fsLookup (l.filter P) q = none := by
  induction l with
  | nil => rfl
  | cons e tl ih =>
    by_cases hq : e.1 = q
    · have hPe : ¬ P e = true := by
        have he : e = (q, e.2) := by cases e; simp_all
        rw [he, h e.2]; simp
      rw [List.filter_cons, if_neg hPe]
      exact ih
    · by_cases hPe : P e = true
      · unfold fsLookup
        rw [List.filter_cons, if_pos hPe, List.find?_cons_of_neg _ (by simpa using hq)]
        exact ih
      · rw [List.filter_cons, if_neg hPe]
        exact ih

theorem fs_db_ne_legacy (db_path : String) : db_path ≠ db_path ++ ".legacy" := by
  intro h
  have h2 := congrArg String.length h
  rw [String.length_append] at h2
  have h3 : (".legacy" : String).length = 7 := rfl
  omega

/-- C8, counterexample to the claim as stated: when the storage path `"db"`
holds a legacy directory (payload 1) and a previous migration already left
a directory at `"db.legacy"` (payload 2), the migration `rmtree`s the old
`"db.legacy"` tree: after migration no path holds payload 2 — pre-existing
data at the legacy name was deleted, contradicting "no pre-existing data
… at the legacy name is ever deleted". -/
theorem C8_counterexample :
    fsLookup [("db", ⟨true, 1⟩), ("db.legacy", ⟨true, 2⟩)] ("db" ++ ".legacy") =
      some ⟨true, 2⟩ ∧
    migrate_legacy [("db", ⟨true, 1⟩), ("db.legacy", ⟨true, 2⟩)] "db" =
      [("db.legacy", ⟨true, 1⟩)] ∧
    ∀ e ∈ migrate_legacy [("db", ⟨true, 1⟩), ("db.legacy", ⟨true, 2⟩)] "db",
      e.2.payload ≠ 2 := by
  decide

theorem fsLookup_append (l₁ l₂ : Fs) (q : String) :
    fsLookup (l₁ ++ l₂) q = (fsLookup l₁ q).or (fsLookup l₂ q) := by
  unfold fsLookup
  rw [List.find?_append]
  cases l₁.find? (fun e => decide (e.1 = q)) <;> simp

theorem fsLookup_singleton (k : String) (n : FsNode) (q : String) :
    fsLookup [(k, n)] q = if k = q then some n else none := by
  by_cases h : k = q
  · rw [if_pos h]
    unfold fsLookup
    rw [List.find?_cons_of_pos _ (by simpa using h)]
    rfl
  · rw [if_neg h]
    unfold fsLookup
    rw [List.find?_cons_of_neg _ (by simpa using h)]
    rfl

theorem fsRename_lookup (fs1 : Fs) (old new q : String) (node : FsNode)
    (h1 : fsLookup fs1 old = some node) :
    fsLookup (fsRename fs1 old new) q =
      if q = new then some node
      else if q = old then none
      else fsLookup fs1 q := by
  unfold fsRename
  rw [h1, fsLookup_append, fsLookup_singleton]
  by_cases hq : q = new
  · rw [if_pos hq, if_pos hq.symm,
      fsLookup_filter_drop _ _ _ (fun n => by simp [hq])]
    rfl
  · rw [if_neg hq, if_neg (fun h => hq h.symm)]
    by_cases hq2 : q = old
    · rw [if_pos hq2, fsLookup_filter_drop _ _ _ (fun n => by simp [hq2])]
      rfl
    · rw [if_neg hq2, fsLookup_filter_keep _ _ _ (fun n => by simp [hq2, hq])]
      cases fsLookup fs1 q <;> rfl

/-- C8 (amended): when the storage location holds a directory (the legacy
layout), the migration moves that directory's data intact to
`<name>.legacy` and touches no other path — but any data already present
at `<name>.legacy` is deleted (`shutil.rmtree`) to make room, rather than
being preserved; when the storage location is not a directory the
filesystem is untouched. -/
theorem C8_migration_behaviour (fs : Fs) (db_path : String) :
    ((fsLookup fs db_path).any (·.is_dir) = true →
      fsLookup (migrate_legacy fs db_path) (db_path ++ ".legacy") = fsLookup fs db_path ∧
      fsLookup (migrate_legacy fs db_path) db_path = none ∧
      (∀ p, p ≠ db_path → p ≠ db_path ++ ".legacy" →
        fsLookup (migrate_legacy fs db_path) p = fsLookup fs p)) ∧
    ((fsLookup fs db_path).any (·.is_dir) = false → migrate_legacy fs db_path = fs) := by
  have hne := fs_db_ne_legacy db_path
  constructor
  · intro hdir
    obtain ⟨node, hnode⟩ : ∃ node, fsLookup fs db_path = some node := by
      cases h : fsLookup fs db_path with
      | none => rw [h] at hdir; simp [Option.any] at hdir
      | some n => exact ⟨n, rfl⟩
    have hmig : migrate_legacy fs db_path =
        fsRename
          (if (fsLookup fs (db_path ++ ".legacy")).isSome then
            fsRemove fs (db_path ++ ".legacy")
          else fs)
          db_path (db_path ++ ".legacy") := by
      unfold migrate_legacy
      rw [if_pos hdir]
    have hfs1old : fsLookup
        (if (fsLookup fs (db_path ++ ".legacy")).isSome then
          fsRemove fs (db_path ++ ".legacy")
        else fs) db_path = some node := by
      split
      · unfold fsRemove
        rw [fsLookup_filter_keep _ _ _ (fun n => by simpa using hne)]
        exact hnode
      · exact hnode
    have hfs1other : ∀ p, p ≠ db_path ++ ".legacy" →
        fsLookup
          (if (fsLookup fs (db_path ++ ".legacy")).isSome then
            fsRemove fs (db_path ++ ".legacy")
          else fs) p = fsLookup fs p := by
      intro p hp
      split
      · unfold fsRemove
        rw [fsLookup_filter_keep _ _ _ (fun n => by simpa using hp)]
      · rfl
    refine ⟨?_, ?_, ?_⟩
    · rw [hmig, fsRename_lookup _ db_path _ _ node hfs1old, if_pos rfl, hnode]
    · rw [hmig, fsRename_lookup _ db_path _ _ node hfs1old, if_neg hne, if_pos rfl]
    · intro p hp1 hp2
      rw [hmig, fsRename_lookup _ db_path _ _ node hfs1old, if_neg hp2, if_neg hp1]
      exact hfs1other p hp2
  · intro hdir
    unfold migrate_legacy
    rw [if_neg (by simp [hdir])]

/-- C8, witness for the amended theorem at a concrete instance. -/
theorem C8_witness :
    ((fsLookup [("db", ⟨true, 7⟩)] "db").any (·.is_dir) = true) ∧
    fsLookup (migrate_legacy [("db", ⟨true, 7⟩)] "db") ("db" ++ ".legacy") =
      fsLookup [("db", ⟨true, 7⟩)] "db" :=
  ⟨by decide, ((C8_migration_behaviour [("db", ⟨true, 7⟩)] "db").1 (by decide)).1⟩

/-! ## Claims C9, C5 — similarity search -/

theorem foldl_sq_nonneg (l : List Scalar) : ∀ a : Scalar, 0 ≤ a →
    0 ≤ l.foldl (fun acc x => acc + x * x) a := by
  induction l with
  | nil => intro a ha; exact ha
  | cons x tl ih =>
    intro a ha
    exact ih _ (add_nonneg ha (mul_self_nonneg x))

theorem foldl_sq_pos_start (l : List Scalar) : ∀ a : Scalar, 0 < a →
    0 < l.foldl (fun acc x => acc + x * x) a := by
  induction l with
  | nil => intro a ha; exact ha
  | cons x tl ih =>
    intro a ha
    exact ih _ (add_pos_of_pos_of_nonneg ha (mul_self_nonneg x))

theorem foldl_sq_pos (l : List Scalar) : ∀ a : Scalar, 0 ≤ a →
    (∃ x ∈ l, x ≠ 0) → 0 < l.foldl (fun acc x => acc + x * x) a := by
  induction l with
  | nil =>
    intro a _ h
    rcases h with ⟨x, hx, _⟩
    cases hx
  | cons y tl ih =>
    intro a ha h
    rcases h with ⟨x, hx, hx0⟩
    rcases List.mem_cons.1 hx with rfl | hxtl
    · exact foldl_sq_pos_start tl _ (add_pos_of_nonneg_of_pos ha (mul_self_pos.mpr hx0))
    · exact ih _ (add_nonneg ha (mul_self_nonneg y)) ⟨x, hxtl, hx0⟩

/-- C9 (confirmed): `search` returns the empty list, raising nothing, when
the query vector is empty or has zero Euclidean norm, and likewise when
`limit = 0` regardless of query and store contents. -/
theorem C9_degenerate_search (sq : Scalar → Scalar) (st : StoreState) (query : List Scalar)
    (limit : Int) (hsq : SqrtSpec sq) :
    ((query = [] ∨ query.foldl (fun acc x => acc + x * x) 0 = 0) →
      search sq st query limit = []) ∧
    (limit = 0 → search sq st query limit = []) := by
  constructor
  · intro hq
    have hsum : query.foldl (fun acc x => acc + x * x) 0 = 0 := by
      rcases hq with rfl | h
      · rfl
      · exact h
    have hnorm : vector_norm sq query = 0 := by
      unfold vector_norm
      rw [hsum]
      exact (hsq 0 le_rfl).mpr rfl
    simp only [search]
    by_cases hl : limit ≤ 0
    · rw [if_pos hl]
    · rw [if_neg hl, if_pos hnorm]
  · intro h
    subst h
    simp only [search]
    rw [if_pos (by norm_num : (0 : Int) ≤ 0)]

/-- C9, witness: a store holding one two-dimensional chunk, probed with a
zero query vector and with `limit = 0`. -/
theorem C9_witness :
    search id (⟨[], [], [⟨"c", "f", 0, 0, 0, "t", "m", [1, 0], 2, 1⟩]⟩ : StoreState)
      [0, 0] 5 = [] ∧
    search id (⟨[], [], [⟨"c", "f", 0, 0, 0, "t", "m", [1, 0], 2, 1⟩]⟩ : StoreState)
      [1, 0] 0 = [] :=
  ⟨(C9_degenerate_search id _ [0, 0] 5 (fun _ _ => Iff.rfl)).1 (Or.inr (by norm_num)),
   (C9_degenerate_search id _ [1, 0] 0 (fun _ _ => Iff.rfl)).2 rfl⟩

theorem scoreLe_trans : ∀ (a b c : SearchMatch), decide (b.score ≤ a.score) = true →
    decide (c.score ≤ b.score) = true → decide (c.score ≤ a.score) = true := by
  intro a b c h1 h2
  simp only [decide_eq_true_eq] at h1 h2 ⊢
  exact le_trans h2 h1

theorem scoreLe_total : ∀ (a b : SearchMatch),
    (decide (b.score ≤ a.score) || decide (a.score ≤ b.score)) = true := by
  intro a b
  simpa using le_total b.score a.score

theorem pairwise_scoreLe_of_all_eq (s : Scalar) :
    ∀ L : List SearchMatch, (∀ m ∈ L, m.score = s) →
      L.Pairwise (fun a b => decide (b.score ≤ a.score) = true) := by
  intro L
  induction L with
  | nil => intro _; exact List.Pairwise.nil
  | cons m tl ih =>
    intro h
    refine List.Pairwise.cons ?_ (ih (fun x hx => h x (List.mem_cons_of_mem m hx)))
    intro b hb
    have h1 : m.score = s := h m (List.mem_cons_self m tl)
    have h2 : b.score = s := h b (List.mem_cons_of_mem m hb)
    simp [h1, h2]

/-- Sort stability for the tie predicate: the elements of any fixed score
appear in the stable descending sort exactly in their original order. -/
theorem mergeSort_filter_score (l : List SearchMatch) (s : Scalar) :
    (l.mergeSort (fun a b => decide (b.score ≤ a.score))).filter
        (fun m => decide (m.score = s)) =
      l.filter (fun m => decide (m.score = s)) := by
  have hall : ∀ m ∈ l.filter (fun m => decide (m.score = s)), m.score = s := by
    intro m hm
    simpa using (List.mem_filter.mp hm).2
  have hpair := pairwise_scoreLe_of_all_eq s _ hall
  have hsub : List.Sublist (l.filter (fun m => decide (m.score = s)))
      (l.mergeSort (fun a b => decide (b.score ≤ a.score))) :=
    List.sublist_mergeSort scoreLe_trans scoreLe_total hpair (List.filter_sublist l)
  have hperm : List.Perm
      ((l.mergeSort (fun a b => decide (b.score ≤ a.score))).filter
        (fun m => decide (m.score = s)))
      (l.filter (fun m => decide (m.score = s))) :=
    (List.mergeSort_perm l _).filter _
  have hsub2 : List.Sublist (l.filter (fun m => decide (m.score = s)))
      ((l.mergeSort (fun a b => decide (b.score ≤ a.score))).filter
        (fun m => decide (m.score = s))) := by
    have h1 := hsub.filter (fun m => decide (m.score = s))
    rwa [List.filter_eq_self.mpr (fun a ha => (List.mem_filter.mp ha).2)] at h1
  exact (hsub2.eq_of_length hperm.length_eq.symm).symm

theorem scoreRow_isSome (qnorm : Scalar) (query : List Scalar) (row : ChunkRow) :
    (scoreRow qnorm query row).isSome =
      decide (row.embedding_dim = query.length ∧ row.embedding_norm ≠ 0) := by
  unfold scoreRow
  by_cases h1 : row.embedding_dim = query.length
  · by_cases h2 : row.embedding_norm = 0
    · simp [h1, h2]
    · simp [h1, h2]
  · simp [h1]

/-- C5, counterexample to the claim as stated: a stored chunk whose
embedding dimension matches the query's but whose precomputed norm is `0`
is silently skipped rather than scored — the claim admits only
mismatched-dimension rows as skippable, so with a non-zero query, positive
limit and a matching-dimension zero-norm row the result is empty instead
of containing that row. -/
theorem C5_counterexample :
    ((1 : Scalar) ≠ 0 ∧ (0 : Int) < 5 ∧
      (⟨"z", "f", 0, 0, 0, "t", "m", [0, 0], 2, 0⟩ : ChunkRow).embedding_dim =
        ([1, 0] : List Scalar).length) ∧
    search id (⟨[], [], [⟨"z", "f", 0, 0, 0, "t", "m", [0, 0], 2, 0⟩]⟩ : StoreState)
      [1, 0] 5 = [] := by
  constructor
  · exact ⟨one_ne_zero, by norm_num, rfl⟩
  · have h1 : vector_norm id ([1, 0] : List Scalar) = 1 := by
      unfold vector_norm
      norm_num
    simp only [search, h1]
    norm_num [scoreRow]

/-- C5 (amended): for a non-zero query and positive limit, `search` scores
every stored chunk whose embedding dimension equals the query's **and
whose precomputed stored norm is non-zero** (zero-norm rows are skipped
exactly like mismatched-dimension ones), with
`score = dot(query, stored) / (‖query‖·‖stored‖)` using the stored norm
and `distance = 1 - score`; it returns the top `limit` of them sorted
descending by score, equal scores keeping the original row order. -/
theorem C5_search_scoring (sq : Scalar → Scalar) (st : StoreState) (query : List Scalar)
    (limit : Int) (hsq : SqrtSpec sq) (hq : ∃ x ∈ query, x ≠ 0) (hl : 0 < limit) :
    (∀ m ∈ search sq st query limit, ∃ row ∈ st.chunks,
        row.embedding_dim = query.length ∧ row.embedding_norm ≠ 0 ∧
        m.id = row.id ∧ m.text = row.text ∧ m.metadata = row.metadata_json ∧
        m.score = dotZip row.embedding query /
          (vector_norm sq query * row.embedding_norm) ∧
        m.distance = 1 - m.score) ∧
    (search sq st query limit).length =
      min limit.toNat (st.chunks.countP
        (fun row => decide (row.embedding_dim = query.length ∧ row.embedding_norm ≠ 0))) ∧
    (search sq st query limit).Pairwise (fun a b => b.score ≤ a.score) ∧
    (∀ s : Scalar, ∃ t,
      (searchCandidates sq st query).filter (fun m => decide (m.score = s)) =
        (search sq st query limit).filter (fun m => decide (m.score = s)) ++ t) := by
  have hnorm : vector_norm sq query ≠ 0 := by
    have hpos : 0 < query.foldl (fun acc x => acc + x * x) 0 :=
      foldl_sq_pos query 0 le_rfl hq
    intro h
    unfold vector_norm at h
    exact absurd ((hsq _ (le_of_lt hpos)).mp h) (ne_of_gt hpos)
  have hsearch : search sq st query limit =
      ((searchCandidates sq st query).mergeSort
        (fun a b => decide (b.score ≤ a.score))).take limit.toNat := by
    simp only [search, searchCandidates]
    rw [if_neg (by omega : ¬ limit ≤ 0), if_neg hnorm]
  refine ⟨?_, ?_, ?_, ?_⟩
  · intro m hm
    rw [hsearch] at hm
    have hm2 : m ∈ searchCandidates sq st query :=
      List.mem_mergeSort.mp (List.mem_of_mem_take hm)
    obtain ⟨row, hrow, hsome⟩ := List.mem_filterMap.mp hm2
    unfold scoreRow at hsome
    by_cases h1 : row.embedding_dim = query.length
    · rw [if_neg (not_not_intro h1)] at hsome
      by_cases h2 : row.embedding_norm = 0
      · rw [if_pos h2] at hsome
        cases hsome
      · rw [if_neg h2] at hsome
        injection hsome with hsome
        subst hsome
        exact ⟨row, hrow, h1, h2, rfl, rfl, rfl, rfl, rfl⟩
    · rw [if_pos h1] at hsome
      cases hsome
  · rw [hsearch, List.length_take, List.length_mergeSort]
    congr 1
    unfold searchCandidates
    rw [List.length_filterMap_eq_countP]
    apply List.countP_congr
    intro row _
    rw [scoreRow_isSome]
  · rw [hsearch]
    have hsorted := List.sorted_mergeSort scoreLe_trans scoreLe_total
      (searchCandidates sq st query)
    have h2 := List.Pairwise.sublist (List.take_sublist limit.toNat
      ((searchCandidates sq st query).mergeSort (fun a b => decide (b.score ≤ a.score)))) hsorted
    exact h2.imp (by intro a b h; simpa using h)
  · intro s
    refine ⟨(((searchCandidates sq st query).mergeSort
        (fun a b => decide (b.score ≤ a.score))).drop limit.toNat).filter
          (fun m => decide (m.score = s)), ?_⟩
    rw [hsearch, ← List.filter_append, List.take_append_drop, mergeSort_filter_score]

/-- C5, witness for the amended theorem at a concrete two-row store. -/
theorem C5_witness :
    (SqrtSpec id ∧ (∃ x ∈ ([1, 0] : List Scalar), x ≠ 0) ∧ (0 : Int) < 5) ∧
    (search id (⟨[], [], [⟨"a", "f", 0, 0, 0, "t1", "m1", [1, 0], 2, 1⟩,
        ⟨"z", "f", 0, 0, 0, "t2", "m2", [0, 0], 2, 0⟩]⟩ : StoreState) [1, 0] 5).length =
      min (Int.toNat 5)
        ((⟨[], [], [⟨"a", "f", 0, 0, 0, "t1", "m1", [1, 0], 2, 1⟩,
          ⟨"z", "f", 0, 0, 0, "t2", "m2", [0, 0], 2, 0⟩]⟩ : StoreState).chunks.countP
          (fun row => decide (row.embedding_dim = ([1, 0] : List Scalar).length ∧
            row.embedding_norm ≠ 0))) :=
  ⟨⟨fun _ _ => Iff.rfl, ⟨1, by decide, one_ne_zero⟩, by norm_num⟩,
   (C5_search_scoring id _ [1, 0] 5 (fun _ _ => Iff.rfl)
      ⟨1, by decide, one_ne_zero⟩ (by norm_num)).2.1⟩

/-! ## Metadata-table lemmas -/

theorem metaGet_cons (e : String × String) (tl : List (String × String)) (k' : String) :
    metaGet (e :: tl) k' = if e.1 = k' then some e.2 else metaGet tl k' := by
  by_cases h : e.1 = k'
  · rw [if_pos h]
    unfold metaGet
    rw [List.find?_cons_of_pos _ (by simpa using h)]
    rfl
  · rw [if_neg h]
    unfold metaGet
    rw [List.find?_cons_of_neg _ (by simpa using h)]

theorem metaGet_append (l1 l2 : List (String × String)) (k' : String) :
    metaGet (l1 ++ l2) k' = (metaGet l1 k').or (metaGet l2 k') := by
  unfold metaGet
  rw [List.find?_append]
  cases l1.find? (fun p => decide (p.1 = k')) <;> simp

theorem metaGet_map_set_ne (md : List (String × String)) (k v k' : String) (h : k' ≠ k) :
    metaGet (md.map (fun p => if p.1 = k then (k, v) else p)) k' = metaGet md k' := by
  induction md with
  | nil => rfl
  | cons e tl ih =>
    rw [List.map_cons, metaGet_cons, metaGet_cons]
    by_cases he : e.1 = k
    · rw [if_pos he]
      rw [if_neg (by simpa using fun hh : k = k' => h hh.symm),
        if_neg (by rw [he]; exact fun hh => h hh.symm)]
      exact ih
    · rw [if_neg he]
      by_cases he' : e.1 = k'
      · rw [if_pos he', if_pos he']
      · rw [if_neg he', if_neg he']
        exact ih

theorem metaGet_map_set_self (md : List (String × String)) (k v : String)
    (h : md.any (fun p => decide (p.1 = k)) = true) :
    metaGet (md.map (fun p => if p.1 = k then (k, v) else p)) k = some v := by
  induction md with
  | nil => cases h
  | cons e tl ih =>
    rw [List.map_cons, metaGet_cons]
    by_cases he : e.1 = k
    · rw [if_pos he]
      rw [if_pos rfl]
    · rw [if_neg he]
      rw [if_neg (by simp [he])]
      exact ih (by simpa [he] using h)

theorem metaGet_eq_none_of_any_false (md : List (String × String)) (k : String)
    (h : md.any (fun p => decide (p.1 = k)) = false) : metaGet md k = none := by
  unfold metaGet
  rw [List.find?_eq_none.mpr]
  · rfl
  · intro p hp
    have := (List.any_eq_false.mp h) p hp
    simpa using this

/-- The full behaviour of the `ON CONFLICT DO UPDATE` upsert on the
`metadata` table. -/
theorem metaGet_metaSet (md : List (String × String)) (k v k' : String) :
    metaGet (metaSet md k v) k' = if k' = k then some v else metaGet md k' := by
  unfold metaSet
  by_cases hany : md.any (fun p => decide (p.1 = k)) = true
  · rw [if_pos hany]
    by_cases h : k' = k
    · subst h
      rw [if_pos rfl]
      exact metaGet_map_set_self md k' v hany
    · rw [if_neg h]
      exact metaGet_map_set_ne md k v k' h
  · rw [if_neg hany, metaGet_append]
    by_cases h : k' = k
    · subst h
      rw [if_pos rfl,
        metaGet_eq_none_of_any_false md k' (Bool.eq_false_iff.mpr hany),
        metaGet_cons, if_pos rfl]
      rfl
    · rw [if_neg h, metaGet_cons, if_neg (fun hh => h hh.symm)]
      cases metaGet md k' <;> rfl

/-! ## Claim C2 — atomicity of `replace_index` -/

theorem runTxn_none (st : StoreState) (ops : List (StoreState → StoreState)) :
    runTxn st ops none = (ops.foldl (fun s f => f s) st, none) := rfl

theorem runTxn_some_lt (st : StoreState) (ops : List (StoreState → StoreState)) (k : Nat)
    (h : k < ops.length) : runTxn st ops (some k) = (st, some StoreErr.storageError) := by
  show (if k < ops.length then (st, some StoreErr.storageError)
    else (ops.foldl (fun s f => f s) st, none)) = (st, some StoreErr.storageError)
  rw [if_pos h]

theorem runTxn_some_ge (st : StoreState) (ops : List (StoreState → StoreState)) (k : Nat)
    (h : ¬ k < ops.length) :
    runTxn st ops (some k) = (ops.foldl (fun s f => f s) st, none) := by
  show (if k < ops.length then (st, some StoreErr.storageError)
    else (ops.foldl (fun s f => f s) st, none)) = (ops.foldl (fun s f => f s) st, none)
  rw [if_neg h]

/-- The committed state when `replace_index`'s transaction runs to
completion: both tables replaced by the new snapshot, the five metadata
keys upserted. -/
theorem replaceIndexOps_foldl (sq : Scalar → Scalar) (st : StoreState) (root_path : String)
    (files : List FileEntry) (chunks : List ChunkInput) (embeddings : List (List Scalar))
    (embedding_model : String) (chunk_size chunk_overlap : Int) (now : String) :
    (replaceIndexOps sq root_path files chunks embeddings embedding_model
        chunk_size chunk_overlap now).foldl (fun s f => f s) st =
      { metadata := metaSet (metaSet (metaSet (metaSet (metaSet st.metadata
          "indexed_root" root_path)
          "embedding_model" embedding_model)
          "chunk_size" (toString chunk_size))
          "chunk_overlap" (toString chunk_overlap))
          "indexed_at" now
        files := files
        chunks := (chunks.zip embeddings).map (fun p => mkChunkRow sq p.1 p.2) } := by
  unfold replaceIndexOps
  by_cases hf : files = []
  · by_cases hc : chunks = []
    · subst hf; subst hc
      simp [List.foldl]
    · subst hf
      simp [hc, List.foldl]
  · by_cases hc : chunks = []
    · subst hc
      simp [hf, List.foldl]
    · simp [hf, hc, List.foldl]

/-- C2 (confirmed): `replace_index` is all-or-nothing.  On success the
committed state holds exactly the new file rows, the new chunk rows and
the five metadata keys (all other metadata keys untouched); on any
failure — the pre-transaction `ValueError` or a storage failure at any
statement of the transaction — the previously committed files, chunks and
metadata are left completely unchanged.  In particular the metadata record
always describes exactly the catalog and chunk set the tables hold. -/
theorem C2_replace_index_atomicity (sq : Scalar → Scalar) (st : StoreState)
    (root_path : String) (files : List FileEntry) (chunks : List ChunkInput)
    (embeddings : List (List Scalar)) (embedding_model : String)
    (chunk_size chunk_overlap : Int) (now : String) (failAt : Option Nat) :
    ((replace_index sq st root_path files chunks embeddings embedding_model
        chunk_size chunk_overlap now failAt).2 ≠ none →
      (replace_index sq st root_path files chunks embeddings embedding_model
        chunk_size chunk_overlap now failAt).1 = st) ∧
    ((replace_index sq st root_path files chunks embeddings embedding_model
        chunk_size chunk_overlap now failAt).2 = none →
      (replace_index sq st root_path files chunks embeddings embedding_model
          chunk_size chunk_overlap now failAt).1.files = files ∧
      (replace_index sq st root_path files chunks embeddings embedding_model
          chunk_size chunk_overlap now failAt).1.chunks =
        (chunks.zip embeddings).map (fun p => mkChunkRow sq p.1 p.2) ∧
      metaGet (replace_index sq st root_path files chunks embeddings embedding_model
          chunk_size chunk_overlap now failAt).1.metadata "indexed_root" = some root_path ∧
      metaGet (replace_index sq st root_path files chunks embeddings embedding_model
          chunk_size chunk_overlap now failAt).1.metadata "embedding_model" =
        some embedding_model ∧
      metaGet (replace_index sq st root_path files chunks embeddings embedding_model
          chunk_size chunk_overlap now failAt).1.metadata "chunk_size" =
        some (toString chunk_size) ∧
      metaGet (replace_index sq st root_path files chunks embeddings embedding_model
          chunk_size chunk_overlap now failAt).1.metadata "chunk_overlap" =
        some (toString chunk_overlap) ∧
      metaGet (replace_index sq st root_path files chunks embeddings embedding_model
          chunk_size chunk_overlap now failAt).1.metadata "indexed_at" = some now ∧
      (∀ k', k' ≠ "indexed_root" → k' ≠ "embedding_model" → k' ≠ "chunk_size" →
        k' ≠ "chunk_overlap" → k' ≠ "indexed_at" →
        metaGet (replace_index sq st root_path files chunks embeddings embedding_model
            chunk_size chunk_overlap now failAt).1.metadata k' =
          metaGet st.metadata k')) := by
  have hsucc : ∀ s' : StoreState,
      s' = (replaceIndexOps sq root_path files chunks embeddings embedding_model
          chunk_size chunk_overlap now).foldl (fun s f => f s) st →
      s'.files = files ∧
      s'.chunks = (chunks.zip embeddings).map (fun p => mkChunkRow sq p.1 p.2) ∧
      metaGet s'.metadata "indexed_root" = some root_path ∧
      metaGet s'.metadata "embedding_model" = some embedding_model ∧
      metaGet s'.metadata "chunk_size" = some (toString chunk_size) ∧
      metaGet s'.metadata "chunk_overlap" = some (toString chunk_overlap) ∧
      metaGet s'.metadata "indexed_at" = some now ∧
      (∀ k', k' ≠ "indexed_root" → k' ≠ "embedding_model" → k' ≠ "chunk_size" →
        k' ≠ "chunk_overlap" → k' ≠ "indexed_at" →
        metaGet s'.metadata k' = metaGet st.metadata k') := by
    intro s' hs'
    rw [hs', replaceIndexOps_foldl]
    refine ⟨rfl, rfl, ?_, ?_, ?_, ?_, ?_, ?_⟩
    · simp [metaGet_metaSet]
    · simp [metaGet_metaSet]
    · simp [metaGet_metaSet]
    · simp [metaGet_metaSet]
    · simp [metaGet_metaSet]
    · intro k' h1 h2 h3 h4 h5
      simp [metaGet_metaSet, h1, h2, h3, h4, h5]
  unfold replace_index
  by_cases hlen : chunks.length ≠ embeddings.length
  · rw [if_pos hlen]
    exact ⟨fun _ => rfl, fun h => by simp at h⟩
  · rw [if_neg hlen]
    cases failAt with
    | none =>
      rw [runTxn_none]
      exact ⟨fun h => absurd rfl h, fun _ => hsucc _ rfl⟩
    | some k =>
      by_cases hk : k < (replaceIndexOps sq root_path files chunks embeddings
          embedding_model chunk_size chunk_overlap now).length
      · rw [runTxn_some_lt _ _ _ hk]
        exact ⟨fun _ => rfl, fun h => by simp at h⟩
      · rw [runTxn_some_ge _ _ _ hk]
        exact ⟨fun h => absurd rfl h, fun _ => hsucc _ rfl⟩

/-- C2, witness: a storage failure at the transaction's first statement
leaves the committed state untouched. -/
theorem C2_witness :
    (replace_index id (⟨[("k", "v")], [], []⟩ : StoreState) "r" [] [] [] "m" 3 1 "t"
        (some 0)).2 ≠ none ∧
    (replace_index id (⟨[("k", "v")], [], []⟩ : StoreState) "r" [] [] [] "m" 3 1 "t"
        (some 0)).1 = (⟨[("k", "v")], [], []⟩ : StoreState) :=
  ⟨by decide,
   (C2_replace_index_atomicity id ⟨[("k", "v")], [], []⟩ "r" [] [] [] "m" 3 1 "t"
      (some 0)).1 (by decide)⟩

/-! ## Claim C6 — `apply_file_updates` precondition checking -/

/-- C6, counterexample to the claim as stated: path `"a.py"` is in
`new_files` and has its file record in `all_files`, but no chunk batch at
all is supplied (`chunks = []`); the call nevertheless succeeds (returns
no error) instead of failing loudly — a missing chunk batch is not
detected. -/
theorem C6_counterexample :
    ("a.py" ∈ ["a.py"] ∧
      (([] : List ChunkInput).filter (fun c => decide (c.file_path = "a.py"))) = []) ∧
    (apply_file_updates id (⟨[], [], []⟩ : StoreState) "r" [⟨"a.py", 1, 1⟩] [] []
      ["a.py"] [] [] "m" 3 1 "t").2 = none := by
  refine ⟨⟨by decide, rfl⟩, ?_⟩
  have hch : sortStrings ((["a.py"] ++ ([] : List String)).dedup) = ["a.py"] := by
    simp [sortStrings]
  simp only [apply_file_updates]
  rw [hch]
  rfl

/-- On a successful call the resulting chunk table is exactly: the old
rows minus those of removed and of changed paths, followed by the freshly
inserted rows. -/
theorem apply_file_updates_chunks (sq : Scalar → Scalar) (st : StoreState)
    (root_path : String) (all_files : List FileEntry) (chunks : List ChunkInput)
    (embeddings : List (List Scalar)) (new_files updated_files removed_files : List String)
    (embedding_model : String) (chunk_size chunk_overlap : Int) (now : String)
    (hlen : chunks.length = embeddings.length)
    (hmiss : (sortStrings ((new_files ++ updated_files).dedup)).filter
      (fun p => (fileSig all_files p).isNone) = []) :
    (apply_file_updates sq st root_path all_files chunks embeddings new_files
        updated_files removed_files embedding_model chunk_size chunk_overlap now).1.chunks =
      ((st.chunks.filter (fun c => decide (c.file_path ∉ removed_files))).filter
          (fun c => decide (c.file_path ∉ sortStrings ((new_files ++ updated_files).dedup))))
        ++ ((chunks.zip embeddings).map (fun p => mkChunkRow sq p.1 p.2)) := by
  have hcid : ∀ l : List ChunkRow,
      l.filter (fun c => decide (c.file_path ∉ ([] : List String))) = l :=
    fun l => List.filter_eq_self.mpr (fun a _ => by simp)
  have hfoldch : ∀ (paths : List String) (s : StoreState),
      (paths.foldl (upsertFile all_files) s).chunks = s.chunks := by
    intro paths
    induction paths with
    | nil => intro s; rfl
    | cons p tl ih =>
      intro s
      rw [List.foldl_cons, ih]
      rfl
  simp only [apply_file_updates]
  rw [if_neg (by simp [hlen]), if_neg (by simpa using hmiss)]
  by_cases hrem : removed_files = [] <;>
    by_cases hch : sortStrings ((new_files ++ updated_files).dedup) = [] <;>
      by_cases hck : chunks = [] <;>
        simp [hrem, hch, hck, hfoldch, hcid]

/-- C6 (amended): given matching chunk/embedding counts,
`apply_file_updates` raises an error if and only if some path of
`newFiles ++ updatedFiles` has no file record in the supplied file list;
a changed path lacking an associated chunk batch is **not** detected: the
call succeeds, the path's old chunk rows are deleted with every other
changed path's, and nothing is inserted for it, so the file ends up with
no chunks at all rather than failing loudly. -/
theorem C6_missing_record_validation (sq : Scalar → Scalar) (st : StoreState)
    (root_path : String) (all_files : List FileEntry) (chunks : List ChunkInput)
    (embeddings : List (List Scalar)) (new_files updated_files removed_files : List String)
    (embedding_model : String) (chunk_size chunk_overlap : Int) (now : String)
    (hlen : chunks.length = embeddings.length) :
    ((apply_file_updates sq st root_path all_files chunks embeddings new_files
        updated_files removed_files embedding_model chunk_size chunk_overlap now).2 ≠ none ↔
      ∃ p ∈ new_files ++ updated_files, fileSig all_files p = none) ∧
    ((apply_file_updates sq st root_path all_files chunks embeddings new_files
        updated_files removed_files embedding_model chunk_size chunk_overlap now).2 = none →
      ∀ p ∈ new_files ++ updated_files, (∀ c ∈ chunks, c.file_path ≠ p) →
        ∀ r ∈ (apply_file_updates sq st root_path all_files chunks embeddings new_files
          updated_files removed_files embedding_model chunk_size chunk_overlap
          now).1.chunks, r.file_path ≠ p) := by
  have hmem : ∀ p, p ∈ sortStrings ((new_files ++ updated_files).dedup) ↔
      p ∈ new_files ++ updated_files := by
    intro p
    unfold sortStrings
    rw [List.mem_mergeSort, List.mem_dedup]
  have hiff : (apply_file_updates sq st root_path all_files chunks embeddings new_files
        updated_files removed_files embedding_model chunk_size chunk_overlap now).2 ≠ none ↔
      ∃ p ∈ new_files ++ updated_files, fileSig all_files p = none := by
    simp only [apply_file_updates]
    rw [if_neg (by simp [hlen])]
    by_cases hm : (sortStrings ((new_files ++ updated_files).dedup)).filter
        (fun p => (fileSig all_files p).isNone) = []
    · rw [if_neg (by simpa using hm)]
      constructor
      · intro h
        exact absurd rfl h
      · rintro ⟨p, hp, hsig⟩
        have h2 := List.filter_eq_nil_iff.mp hm p ((hmem p).mpr hp)
        simp [hsig] at h2
    · rw [if_pos (by simpa using hm)]
      constructor
      · intro _
        obtain ⟨p, hp⟩ := List.exists_mem_of_ne_nil _ hm
        obtain ⟨hp1, hp2⟩ := List.mem_filter.mp hp
        exact ⟨p, (hmem p).mp hp1, by simpa using hp2⟩
      · intro _
        simp
  refine ⟨hiff, ?_⟩
  intro hsucc p hp hnochunk r hr
  have hnomiss : ¬ ∃ q ∈ new_files ++ updated_files, fileSig all_files q = none :=
    fun hcon => (hiff.mpr hcon) hsucc
  have hmiss : (sortStrings ((new_files ++ updated_files).dedup)).filter
      (fun q => (fileSig all_files q).isNone) = [] := by
    apply List.filter_eq_nil_iff.mpr
    intro q hq
    have hq2 : q ∈ new_files ++ updated_files := (hmem q).mp hq
    rcases hfs : fileSig all_files q with _ | s
    · exact absurd ⟨q, hq2, hfs⟩ hnomiss
    · simp
  rw [apply_file_updates_chunks sq st root_path all_files chunks embeddings new_files
    updated_files removed_files embedding_model chunk_size chunk_overlap now hlen hmiss] at hr
  rcases List.mem_append.mp hr with hr | hr
  · have h2 := (List.mem_filter.mp hr).2
    simp only [decide_eq_true_eq] at h2
    intro heq
    apply h2
    rw [heq]
    exact (hmem p).mpr hp
  · obtain ⟨⟨c, v⟩, hq, hqr⟩ := List.mem_map.mp hr
    rw [← hqr]
    exact hnochunk c (List.of_mem_zip hq).1

/-- C6, witness: a concrete call whose changed path `"a.py"` has a file
record but no chunk batch succeeds, and the result holds no chunk row for
`"a.py"`. -/
theorem C6_witness :
    (([] : List ChunkInput).length = ([] : List (List Scalar)).length) ∧
    (apply_file_updates id (⟨[], [], []⟩ : StoreState) "r" [⟨"a.py", 1, 1⟩] [] []
      ["a.py"] [] [] "m" 3 1 "t").2 = none ∧
    (∀ r ∈ (apply_file_updates id (⟨[], [], []⟩ : StoreState) "r" [⟨"a.py", 1, 1⟩] [] []
      ["a.py"] [] [] "m" 3 1 "t").1.chunks, r.file_path ≠ "a.py") := by
  have h := C6_missing_record_validation id (⟨[], [], []⟩ : StoreState) "r"
    [⟨"a.py", 1, 1⟩] [] [] ["a.py"] [] [] "m" 3 1 "t" rfl
  have hsucc : (apply_file_updates id (⟨[], [], []⟩ : StoreState) "r" [⟨"a.py", 1, 1⟩]
      [] [] ["a.py"] [] [] "m" 3 1 "t").2 = none := by
    by_cases hx : (apply_file_updates id (⟨[], [], []⟩ : StoreState) "r" [⟨"a.py", 1, 1⟩]
        [] [] ["a.py"] [] [] "m" 3 1 "t").2 = none
    · exact hx
    · obtain ⟨p, hp, hsig⟩ := h.1.mp hx
      simp at hp
      subst hp
      exact absurd hsig (by decide)
  exact ⟨rfl, hsucc, h.2 hsucc "a.py" (by decide)
    (fun c hc => absurd hc (List.not_mem_nil c))⟩

/-! ## Planner lemmas and claim C1 -/

theorem mem_sortStrings (l : List String) (p : String) : p ∈ sortStrings l ↔ p ∈ l := by
  unfold sortStrings
  exact List.mem_mergeSort

theorem sortStrings_nil : sortStrings [] = [] := by
  simp [sortStrings]

theorem sortStrings_pairwise_le (l : List String) :
    (sortStrings l).Pairwise (fun a b : String => a ≤ b) := by
  have htrans : ∀ (a b c : String), decide (a ≤ b) = true → decide (b ≤ c) = true →
      decide (a ≤ c) = true := by
    intro a b c h1 h2
    simp only [decide_eq_true_eq] at h1 h2 ⊢
    exact le_trans h1 h2
  have htotal : ∀ (a b : String), (decide (a ≤ b) || decide (b ≤ a)) = true := by
    intro a b
    simpa using le_total a b
  have h := List.sorted_mergeSort htrans htotal l
  exact h.imp (by intro a b hh; simpa using hh)

theorem sortStrings_nodup (l : List String) (h : l.Nodup) : (sortStrings l).Nodup :=
  (List.mergeSort_perm l _).nodup_iff.mpr h

theorem sortStrings_pairwise_lt (l : List String) (h : l.Nodup) :
    (sortStrings l).Pairwise (fun a b : String => a < b) := by
  have h1 := sortStrings_pairwise_le l
  have h2 : (sortStrings l).Pairwise (fun a b : String => a ≠ b) := sortStrings_nodup l h
  exact (h1.and h2).imp (by intro a b hh; exact lt_of_le_of_ne hh.1 hh.2)

theorem mem_filePaths (l : List FileEntry) (p : String) :
    p ∈ filePaths l ↔ ∃ e ∈ l, e.path = p := by
  unfold filePaths
  rw [List.mem_dedup, List.mem_map]

theorem filePaths_nodup (l : List FileEntry) : (filePaths l).Nodup :=
  List.nodup_dedup _

theorem fileSig_isSome_iff (l : List FileEntry) (p : String) :
    (fileSig l p).isSome = true ↔ ∃ e ∈ l, e.path = p := by
  unfold fileSig
  rcases h : (l.filter (fun e => decide (e.path = p))).getLast? with _ | e
  · rw [h]
    rw [List.getLast?_eq_none_iff] at h
    simp only [Option.map_none', Option.isSome_none, Bool.false_eq_true, false_iff]
    rintro ⟨e, he, hep⟩
    have hmem : e ∈ l.filter (fun e => decide (e.path = p)) :=
      List.mem_filter.mpr ⟨he, by simpa using hep⟩
    rw [h] at hmem
    cases hmem
  · rw [h]
    have hmem := List.mem_of_getLast?_eq_some h
    obtain ⟨he, hep⟩ := List.mem_filter.mp hmem
    simp only [Option.map_some', Option.isSome_some, true_iff]
    exact ⟨e, he, by simpa using hep⟩

theorem plan_force (st : StoreState) (root_path : String) (files : List FileEntry)
    (embedding_model : String) (chunk_size chunk_overlap : Int) :
    plan_index_update st root_path files embedding_model chunk_size chunk_overlap true =
      rebuildPlan "forced reindex" (filePaths files) (filePaths st.files) := by
  simp [plan_index_update]

theorem plan_no_meta (st : StoreState) (root_path : String) (files : List FileEntry)
    (embedding_model : String) (chunk_size chunk_overlap : Int) (force : Bool)
    (hf : force = false) (h2 : metaGet st.metadata "indexed_root" = none) :
    plan_index_update st root_path files embedding_model chunk_size chunk_overlap force =
      rebuildPlan "index has not been created yet" (filePaths files) (filePaths st.files) := by
  simp [plan_index_update, hf, h2]

theorem plan_root_changed (st : StoreState) (root_path : String) (files : List FileEntry)
    (embedding_model : String) (chunk_size chunk_overlap : Int) (force : Bool)
    (hf : force = false) (r : String)
    (hr : metaGet st.metadata "indexed_root" = some r) (h3 : r ≠ root_path) :
    plan_index_update st root_path files embedding_model chunk_size chunk_overlap force =
      rebuildPlan "indexed root changed" (filePaths files) (filePaths st.files) := by
  simp [plan_index_update, hf, hr, h3]

theorem plan_model_changed (st : StoreState) (root_path : String) (files : List FileEntry)
    (embedding_model : String) (chunk_size chunk_overlap : Int) (force : Bool)
    (hf : force = false)
    (hroot : metaGet st.metadata "indexed_root" = some root_path)
    (h4 : metaGet st.metadata "embedding_model" ≠ some embedding_model) :
    plan_index_update st root_path files embedding_model chunk_size chunk_overlap force =
      rebuildPlan "embedding model changed" (filePaths files) (filePaths st.files) := by
  simp [plan_index_update, hf, hroot, h4]

theorem plan_size_changed (st : StoreState) (root_path : String) (files : List FileEntry)
    (embedding_model : String) (chunk_size chunk_overlap : Int) (force : Bool)
    (hf : force = false)
    (hroot : metaGet st.metadata "indexed_root" = some root_path)
    (hmodel : metaGet st.metadata "embedding_model" = some embedding_model)
    (h5 : metaGet st.metadata "chunk_size" ≠ some (toString chunk_size)) :
    plan_index_update st root_path files embedding_model chunk_size chunk_overlap force =
      rebuildPlan "chunk size changed" (filePaths files) (filePaths st.files) := by
  simp [plan_index_update, hf, hroot, hmodel, h5]

theorem plan_overlap_changed (st : StoreState) (root_path : String) (files : List FileEntry)
    (embedding_model : String) (chunk_size chunk_overlap : Int) (force : Bool)
    (hf : force = false)
    (hroot : metaGet st.metadata "indexed_root" = some root_path)
    (hmodel : metaGet st.metadata "embedding_model" = some embedding_model)
    (hcs : metaGet st.metadata "chunk_size" = some (toString chunk_size))
    (h6 : metaGet st.metadata "chunk_overlap" ≠ some (toString chunk_overlap)) :
    plan_index_update st root_path files embedding_model chunk_size chunk_overlap force =
      rebuildPlan "chunk overlap changed" (filePaths files) (filePaths st.files) := by
  simp [plan_index_update, hf, hroot, hmodel, hcs, h6]

/-- The diff branch of the planner, reached when `force` is off and all
four configuration guards match. -/
theorem plan_diff (st : StoreState) (root_path : String) (files : List FileEntry)
    (embedding_model : String) (chunk_size chunk_overlap : Int) (force : Bool)
    (hf : force = false)
    (hroot : metaGet st.metadata "indexed_root" = some root_path)
    (hmodel : metaGet st.metadata "embedding_model" = some embedding_model)
    (hcs : metaGet st.metadata "chunk_size" = some (toString chunk_size))
    (hco : metaGet st.metadata "chunk_overlap" = some (toString chunk_overlap)) :
    plan_index_update st root_path files embedding_model chunk_size chunk_overlap force =
      { needs_index :=
          !((if sortStrings ((filePaths files).filter
                (fun p => decide (p ∉ filePaths st.files))) ≠ [] then
              ["new files detected"] else []) ++
            (if sortStrings ((filePaths files).filter (fun p =>
                decide (p ∈ filePaths st.files ∧
                  fileSig files p ≠ fileSig st.files p))) ≠ [] then
              ["updated files detected"] else []) ++
            (if sortStrings ((filePaths st.files).filter
                (fun p => decide (p ∉ filePaths files))) ≠ [] then
              ["files removed"] else [])).isEmpty
        full_rebuild := false
        reason :=
          if ((if sortStrings ((filePaths files).filter
                (fun p => decide (p ∉ filePaths st.files))) ≠ [] then
              ["new files detected"] else []) ++
            (if sortStrings ((filePaths files).filter (fun p =>
                decide (p ∈ filePaths st.files ∧
                  fileSig files p ≠ fileSig st.files p))) ≠ [] then
              ["updated files detected"] else []) ++
            (if sortStrings ((filePaths st.files).filter
                (fun p => decide (p ∉ filePaths files))) ≠ [] then
              ["files removed"] else [])).isEmpty then "index is current"
          else String.intercalate ", "
            ((if sortStrings ((filePaths files).filter
                (fun p => decide (p ∉ filePaths st.files))) ≠ [] then
              ["new files detected"] else []) ++
            (if sortStrings ((filePaths files).filter (fun p =>
                decide (p ∈ filePaths st.files ∧
                  fileSig files p ≠ fileSig st.files p))) ≠ [] then
              ["updated files detected"] else []) ++
            (if sortStrings ((filePaths st.files).filter
                (fun p => decide (p ∉ filePaths files))) ≠ [] then
              ["files removed"] else []))
        new_files := sortStrings ((filePaths files).filter
          (fun p => decide (p ∉ filePaths st.files)))
        updated_files := sortStrings ((filePaths files).filter (fun p =>
          decide (p ∈ filePaths st.files ∧ fileSig files p ≠ fileSig st.files p)))
        removed_files := sortStrings ((filePaths st.files).filter
          (fun p => decide (p ∉ filePaths files))) } := by
  simp only [plan_index_update]
  rw [if_neg (by simp [hf]), if_neg (by simp [hroot]), if_neg (by simp [hroot]),
    if_neg (by simp [hmodel]), if_neg (by simp [hcs]), if_neg (by simp [hco])]

/-- C1 (confirmed): `plan_index_update` returns the decision of the first
matching rule in the fixed order force / no persisted index metadata /
root differs / model differs / chunk size differs / chunk overlap differs,
each a full rebuild with exactly the stated reason string; otherwise it is
no full rebuild and `new_files` / `removed_files` / `updated_files` are
exactly the set-theoretic differences of the two catalogs over `path` and
over the `(size, mtime_ns)` pair, each returned strictly sorted, with
`needs_index` true iff some list is non-empty, the reason being the
comma-joined applicable phrases, and reason `"index is current"` with
`needs_index` false when all three are empty. -/
theorem C1_planner_decision (st : StoreState) (root_path : String) (files : List FileEntry)
    (embedding_model : String) (chunk_size chunk_overlap : Int) (force : Bool) :
    (force = true →
      (plan_index_update st root_path files embedding_model chunk_size chunk_overlap force).needs_index = true ∧
      (plan_index_update st root_path files embedding_model chunk_size chunk_overlap force).full_rebuild = true ∧
      (plan_index_update st root_path files embedding_model chunk_size chunk_overlap force).reason = "forced reindex") ∧
    (force = false → metaGet st.metadata "indexed_root" = none →
      (plan_index_update st root_path files embedding_model chunk_size chunk_overlap force).needs_index = true ∧
      (plan_index_update st root_path files embedding_model chunk_size chunk_overlap force).full_rebuild = true ∧
      (plan_index_update st root_path files embedding_model chunk_size chunk_overlap force).reason = "index has not been created yet") ∧
    (force = false → ∀ r, metaGet st.metadata "indexed_root" = some r → r ≠ root_path →
      (plan_index_update st root_path files embedding_model chunk_size chunk_overlap force).needs_index = true ∧
      (plan_index_update st root_path files embedding_model chunk_size chunk_overlap force).full_rebuild = true ∧
      (plan_index_update st root_path files embedding_model chunk_size chunk_overlap force).reason = "indexed root changed") ∧
    (force = false → metaGet st.metadata "indexed_root" = some root_path →
      metaGet st.metadata "embedding_model" ≠ some embedding_model →
      (plan_index_update st root_path files embedding_model chunk_size chunk_overlap force).needs_index = true ∧
      (plan_index_update st root_path files embedding_model chunk_size chunk_overlap force).full_rebuild = true ∧
      (plan_index_update st root_path files embedding_model chunk_size chunk_overlap force).reason = "embedding model changed") ∧
    (force = false → metaGet st.metadata "indexed_root" = some root_path →
      metaGet st.metadata "embedding_model" = some embedding_model →
      metaGet st.metadata "chunk_size" ≠ some (toString chunk_size) →
      (plan_index_update st root_path files embedding_model chunk_size chunk_overlap force).needs_index = true ∧
      (plan_index_update st root_path files embedding_model chunk_size chunk_overlap force).full_rebuild = true ∧
      (plan_index_update st root_path files embedding_model chunk_size chunk_overlap force).reason = "chunk size changed") ∧
    (force = false → metaGet st.metadata "indexed_root" = some root_path →
      metaGet st.metadata "embedding_model" = some embedding_model →
      metaGet st.metadata "chunk_size" = some (toString chunk_size) →
      metaGet st.metadata "chunk_overlap" ≠ some (toString chunk_overlap) →
      (plan_index_update st root_path files embedding_model chunk_size chunk_overlap force).needs_index = true ∧
      (plan_index_update st root_path files embedding_model chunk_size chunk_overlap force).full_rebuild = true ∧
      (plan_index_update st root_path files embedding_model chunk_size chunk_overlap force).reason = "chunk overlap changed") ∧
    (force = false → metaGet st.metadata "indexed_root" = some root_path →
      metaGet st.metadata "embedding_model" = some embedding_model →
      metaGet st.metadata "chunk_size" = some (toString chunk_size) →
      metaGet st.metadata "chunk_overlap" = some (toString chunk_overlap) →
      (plan_index_update st root_path files embedding_model chunk_size chunk_overlap force).full_rebuild = false ∧
      (∀ p, p ∈ (plan_index_update st root_path files embedding_model chunk_size chunk_overlap force).new_files ↔
        (∃ e ∈ files, e.path = p) ∧ ¬ ∃ e ∈ st.files, e.path = p) ∧
      (∀ p, p ∈ (plan_index_update st root_path files embedding_model chunk_size chunk_overlap force).removed_files ↔
        (∃ e ∈ st.files, e.path = p) ∧ ¬ ∃ e ∈ files, e.path = p) ∧
      (∀ p, p ∈ (plan_index_update st root_path files embedding_model chunk_size chunk_overlap force).updated_files ↔
        (∃ e ∈ files, e.path = p) ∧ (∃ e ∈ st.files, e.path = p) ∧
        fileSig files p ≠ fileSig st.files p) ∧
      (plan_index_update st root_path files embedding_model chunk_size chunk_overlap force).new_files.Pairwise (fun a b : String => a < b) ∧
      (plan_index_update st root_path files embedding_model chunk_size chunk_overlap force).updated_files.Pairwise (fun a b : String => a < b) ∧
      (plan_index_update st root_path files embedding_model chunk_size chunk_overlap force).removed_files.Pairwise (fun a b : String => a < b) ∧
      ((plan_index_update st root_path files embedding_model chunk_size chunk_overlap force).needs_index = true ↔
        ((plan_index_update st root_path files embedding_model chunk_size chunk_overlap force).new_files ≠ [] ∨ (plan_index_update st root_path files embedding_model chunk_size chunk_overlap force).updated_files ≠ [] ∨
          (plan_index_update st root_path files embedding_model chunk_size chunk_overlap force).removed_files ≠ [])) ∧
      ((plan_index_update st root_path files embedding_model chunk_size chunk_overlap force).needs_index = true →
        (plan_index_update st root_path files embedding_model chunk_size chunk_overlap force).reason = String.intercalate ", "
          ((if (plan_index_update st root_path files embedding_model chunk_size chunk_overlap force).new_files ≠ [] then ["new files detected"] else []) ++
           (if (plan_index_update st root_path files embedding_model chunk_size chunk_overlap force).updated_files ≠ [] then ["updated files detected"] else []) ++
           (if (plan_index_update st root_path files embedding_model chunk_size chunk_overlap force).removed_files ≠ [] then ["files removed"] else []))) ∧
      ((plan_index_update st root_path files embedding_model chunk_size chunk_overlap force).needs_index = false → (plan_index_update st root_path files embedding_model chunk_size chunk_overlap force).reason = "index is current")) := by
  refine ⟨?_, ?_, ?_, ?_, ?_, ?_, ?_⟩
  · intro hf
    subst hf
    rw [plan_force]
    exact ⟨rfl, rfl, rfl⟩
  · intro hf h2
    rw [plan_no_meta st root_path files embedding_model chunk_size chunk_overlap force hf h2]
    exact ⟨rfl, rfl, rfl⟩
  · intro hf r hr hne
    rw [plan_root_changed st root_path files embedding_model chunk_size chunk_overlap
      force hf r hr hne]
    exact ⟨rfl, rfl, rfl⟩
  · intro hf hroot h4
    rw [plan_model_changed st root_path files embedding_model chunk_size chunk_overlap
      force hf hroot h4]
    exact ⟨rfl, rfl, rfl⟩
  · intro hf hroot hmodel h5
    rw [plan_size_changed st root_path files embedding_model chunk_size chunk_overlap
      force hf hroot hmodel h5]
    exact ⟨rfl, rfl, rfl⟩
  · intro hf hroot hmodel hcs h6
    rw [plan_overlap_changed st root_path files embedding_model chunk_size chunk_overlap
      force hf hroot hmodel hcs h6]
    exact ⟨rfl, rfl, rfl⟩
  · intro hf hroot hmodel hcs hco
    rw [plan_diff st root_path files embedding_model chunk_size chunk_overlap force
      hf hroot hmodel hcs hco]
    refine ⟨rfl, ?_, ?_, ?_, ?_, ?_, ?_, ?_, ?_, ?_⟩
    · intro p
      simp only [mem_sortStrings, List.mem_filter, decide_eq_true_eq]
      rw [mem_filePaths, mem_filePaths]
    · intro p
      simp only [mem_sortStrings, List.mem_filter, decide_eq_true_eq]
      rw [mem_filePaths, mem_filePaths]
    · intro p
      simp only [mem_sortStrings, List.mem_filter, decide_eq_true_eq]
      rw [mem_filePaths, mem_filePaths]
    · exact sortStrings_pairwise_lt _ ((filePaths_nodup files).filter _)
    · exact sortStrings_pairwise_lt _ ((filePaths_nodup files).filter _)
    · exact sortStrings_pairwise_lt _ ((filePaths_nodup st.files).filter _)
    · generalize sortStrings ((filePaths files).filter
          (fun p => decide (p ∉ filePaths st.files))) = N
      generalize sortStrings ((filePaths files).filter (fun p =>
          decide (p ∈ filePaths st.files ∧ fileSig files p ≠ fileSig st.files p))) = U
      generalize sortStrings ((filePaths st.files).filter
          (fun p => decide (p ∉ filePaths files))) = R
      by_cases e1 : N = [] <;> by_cases e2 : U = [] <;> by_cases e3 : R = [] <;>
        simp [e1, e2, e3]
    · generalize sortStrings ((filePaths files).filter
          (fun p => decide (p ∉ filePaths st.files))) = N
      generalize sortStrings ((filePaths files).filter (fun p =>
          decide (p ∈ filePaths st.files ∧ fileSig files p ≠ fileSig st.files p))) = U
      generalize sortStrings ((filePaths st.files).filter
          (fun p => decide (p ∉ filePaths files))) = R
      by_cases e1 : N = [] <;> by_cases e2 : U = [] <;> by_cases e3 : R = [] <;>
        simp [e1, e2, e3]
    · generalize sortStrings ((filePaths files).filter
          (fun p => decide (p ∉ filePaths st.files))) = N
      generalize sortStrings ((filePaths files).filter (fun p =>
          decide (p ∈ filePaths st.files ∧ fileSig files p ≠ fileSig st.files p))) = U
      generalize sortStrings ((filePaths st.files).filter
          (fun p => decide (p ∉ filePaths files))) = R
      by_cases e1 : N = [] <;> by_cases e2 : U = [] <;> by_cases e3 : R = [] <;>
        simp [e1, e2, e3]

/-- C1, witness at a concrete forced call. -/
theorem C1_witness :
    (true = true) ∧
    ((plan_index_update ⟨[], [], []⟩ "r" [] "m" 3 1 true).needs_index = true ∧
     (plan_index_update ⟨[], [], []⟩ "r" [] "m" 3 1 true).full_rebuild = true ∧
     (plan_index_update ⟨[], [], []⟩ "r" [] "m" 3 1 true).reason = "forced reindex") :=
  ⟨rfl, (C1_planner_decision ⟨[], [], []⟩ "r" [] "m" 3 1 true).1 rfl⟩

/-! ## Incremental-update lemmas (towards claim C7) -/

theorem upsertFileRow_eq_of_sig (all fl : List FileEntry) (p : String) (sig : Int × Int)
    (hsig : fileSig all p = some sig) :
    upsertFileRow all fl p =
      if (fl.any fun f => decide (f.path = p)) = true then
        List.map (fun f => if f.path = p then
          { path := p, size := sig.1, mtime_ns := sig.2 } else f) fl
      else fl ++ [{ path := p, size := sig.1, mtime_ns := sig.2 }] := by
  unfold upsertFileRow
  rw [hsig]

theorem upsertFileRow_sig_self (all fl : List FileEntry) (p : String) (sig : Int × Int)
    (hsig : fileSig all p = some sig) :
    fileSig (upsertFileRow all fl p) p = some sig := by
  rw [upsertFileRow_eq_of_sig all fl p sig hsig]
  by_cases hany : fl.any (fun f => decide (f.path = p)) = true
  · rw [if_pos hany]
    unfold fileSig
    rw [List.filter_map]
    have hcomp : ((fun e : FileEntry => decide (e.path = p)) ∘ (fun f : FileEntry =>
        if f.path = p then { path := p, size := sig.1, mtime_ns := sig.2 } else f)) =
        (fun f : FileEntry => decide (f.path = p)) := by
      funext f
      by_cases hf : f.path = p
      · simp [hf]
      · simp [hf]
    rw [hcomp, List.getLast?_map]
    obtain ⟨f0, hf0, hf0p⟩ := List.any_eq_true.mp hany
    rcases hlast : (fl.filter (fun f => decide (f.path = p))).getLast? with _ | e
    · rw [List.getLast?_eq_none_iff] at hlast
      have hmem : f0 ∈ fl.filter (fun f => decide (f.path = p)) :=
        List.mem_filter.mpr ⟨hf0, hf0p⟩
      rw [hlast] at hmem
      cases hmem
    · rw [hlast]
      have he := List.mem_filter.mp (List.mem_of_getLast?_eq_some hlast)
      have hep : e.path = p := by simpa using he.2
      simp [hep]
  · rw [if_neg hany]
    unfold fileSig
    rw [List.filter_append]
    have hrow : List.filter (fun f => decide (f.path = p))
        [({ path := p, size := sig.1, mtime_ns := sig.2 } : FileEntry)] =
        [{ path := p, size := sig.1, mtime_ns := sig.2 }] := by simp
    rw [hrow, List.getLast?_concat]
    rfl

theorem upsertFileRow_sig_other (all fl : List FileEntry) (p q : String) (hq : q ≠ p) :
    fileSig (upsertFileRow all fl p) q = fileSig fl q := by
  rcases hsig : fileSig all p with _ | sig
  · unfold upsertFileRow
    rw [hsig]
  · rw [upsertFileRow_eq_of_sig all fl p sig hsig]
    by_cases hany : fl.any (fun f => decide (f.path = p)) = true
    · rw [if_pos hany]
      unfold fileSig
      rw [List.filter_map]
      have hcomp : ((fun e : FileEntry => decide (e.path = q)) ∘ (fun f : FileEntry =>
          if f.path = p then { path := p, size := sig.1, mtime_ns := sig.2 } else f)) =
          (fun f : FileEntry => decide (f.path = q)) := by
        funext f
        by_cases hf : f.path = p
        · simp [hf, Ne.symm hq]
        · simp [hf]
      rw [hcomp]
      have hmapid : (fl.filter (fun f => decide (f.path = q))).map (fun f : FileEntry =>
          if f.path = p then { path := p, size := sig.1, mtime_ns := sig.2 } else f) =
          fl.filter (fun f => decide (f.path = q)) := by
        have hid : ∀ f ∈ fl.filter (fun f => decide (f.path = q)),
            (if f.path = p then
              ({ path := p, size := sig.1, mtime_ns := sig.2 } : FileEntry) else f) = id f := by
          intro f hf
          have hfq : f.path = q := by simpa using (List.mem_filter.mp hf).2
          simp [hfq, hq]
        rw [List.map_congr_left hid, List.map_id]
      rw [hmapid]
    · rw [if_neg hany]
      unfold fileSig
      rw [List.filter_append]
      have hrow : List.filter (fun f => decide (f.path = q))
          [({ path := p, size := sig.1, mtime_ns := sig.2 } : FileEntry)] = [] := by
        simp [Ne.symm hq]
      rw [hrow, List.append_nil]

theorem upsertFileRow_mem (all fl : List FileEntry) (p q : String) (sig : Int × Int)
    (hsig : fileSig all p = some sig) :
    (∃ f ∈ upsertFileRow all fl p, f.path = q) ↔ (∃ f ∈ fl, f.path = q) ∨ q = p := by
  rw [upsertFileRow_eq_of_sig all fl p sig hsig]
  by_cases hany : fl.any (fun f => decide (f.path = p)) = true
  · rw [if_pos hany]
    obtain ⟨f0, hf0, hf0p⟩ := List.any_eq_true.mp hany
    have hf0p' : f0.path = p := by simpa using hf0p
    constructor
    · rintro ⟨f, hf, hfq⟩
      obtain ⟨f1, hf1, rfl⟩ := List.mem_map.mp hf
      by_cases h1 : f1.path = p
      · right
        rw [if_pos h1] at hfq
        exact hfq.symm
      · left
        rw [if_neg h1] at hfq
        exact ⟨f1, hf1, hfq⟩
    · rintro (⟨f, hf, hfq⟩ | rfl)
      · by_cases h1 : f.path = p
        · refine ⟨_, List.mem_map_of_mem _ hf, ?_⟩
          rw [h1] at hfq
          rw [if_pos h1]
          exact hfq
        · refine ⟨_, List.mem_map_of_mem _ hf, ?_⟩
          rw [if_neg h1]
          exact hfq
      · refine ⟨_, List.mem_map_of_mem _ hf0, ?_⟩
        rw [if_pos hf0p']
  · rw [if_neg hany]
    constructor
    · rintro ⟨f, hf, hfq⟩
      rcases List.mem_append.mp hf with h | h
      · exact Or.inl ⟨f, h, hfq⟩
      · rcases List.mem_singleton.mp h with rfl
        exact Or.inr hfq.symm
    · rintro (⟨f, hf, hfq⟩ | rfl)
      · exact ⟨f, List.mem_append.mpr (Or.inl hf), hfq⟩
      · exact ⟨_, List.mem_append.mpr (Or.inr (List.mem_singleton.mpr rfl)), rfl⟩

theorem foldl_upsertFileRow_sig_not_mem (all : List FileEntry) :
    ∀ (paths : List String) (fl : List FileEntry) (q : String), q ∉ paths →
      fileSig (paths.foldl (upsertFileRow all) fl) q = fileSig fl q := by
  intro paths
  induction paths with
  | nil => intro fl q _; rfl
  | cons p tl ih =>
    intro fl q hq
    rw [List.foldl_cons, ih _ _ (fun h => hq (List.mem_cons_of_mem _ h)),
      upsertFileRow_sig_other all fl p q (fun h => hq (by rw [h]; exact List.mem_cons_self p tl))]

theorem foldl_upsertFileRow_sig_mem (all : List FileEntry) :
    ∀ (paths : List String) (fl : List FileEntry) (q : String),
      (∀ r ∈ paths, (fileSig all r).isSome = true) → q ∈ paths →
      fileSig (paths.foldl (upsertFileRow all) fl) q = fileSig all q := by
  intro paths
  induction paths with
  | nil => intro fl q _ h; cases h
  | cons p tl ih =>
    intro fl q hall hq
    rw [List.foldl_cons]
    by_cases hqtl : q ∈ tl
    · exact ih _ _ (fun r hr => hall r (List.mem_cons_of_mem _ hr)) hqtl
    · have hqp : q = p := by
        rcases List.mem_cons.mp hq with h | h
        · exact h
        · exact absurd h hqtl
      subst hqp
      rw [foldl_upsertFileRow_sig_not_mem all tl _ q hqtl]
      obtain ⟨sig, hsig⟩ := Option.isSome_iff_exists.mp (hall q (List.mem_cons_self _ _))
      rw [upsertFileRow_sig_self all fl q sig hsig, hsig]

theorem foldl_upsertFileRow_mem (all : List FileEntry) :
    ∀ (paths : List String) (fl : List FileEntry) (q : String),
      (∀ r ∈ paths, (fileSig all r).isSome = true) →
      ((∃ f ∈ paths.foldl (upsertFileRow all) fl, f.path = q) ↔
        (∃ f ∈ fl, f.path = q) ∨ q ∈ paths) := by
  intro paths
  induction paths with
  | nil => intro fl q _; simp
  | cons p tl ih =>
    intro fl q hall
    rw [List.foldl_cons, ih _ _ (fun r hr => hall r (List.mem_cons_of_mem _ hr))]
    obtain ⟨sig, hsig⟩ := Option.isSome_iff_exists.mp (hall p (List.mem_cons_self _ _))
    rw [upsertFileRow_mem all fl p q sig hsig]
    constructor
    · rintro ((h | rfl) | h)
      · exact Or.inl h
      · exact Or.inr (List.mem_cons_self _ _)
      · exact Or.inr (List.mem_cons_of_mem _ h)
    · rintro (h | h)
      · exact Or.inl (Or.inl h)
      · rcases List.mem_cons.mp h with rfl | h2
        · exact Or.inl (Or.inr rfl)
        · exact Or.inr h2

theorem fileSig_filter_not_removed (l : List FileEntry) (rem : List String) (p : String)
    (hp : p ∉ rem) :
    fileSig (l.filter (fun f => decide (f.path ∉ rem))) p = fileSig l p := by
  unfold fileSig
  rw [List.filter_filter]
  have hco : List.filter (fun a => decide (a.path = p) && decide (a.path ∉ rem)) l =
      List.filter (fun a => decide (a.path = p)) l := by
    apply List.filter_congr
    intro f _
    by_cases hf : f.path = p
    · simp [hf, hp]
    · simp [hf]
  rw [hco]

theorem mem_filter_not_removed (l : List FileEntry) (rem : List String) (q : String) :
    (∃ f ∈ l.filter (fun f => decide (f.path ∉ rem)), f.path = q) ↔
      ((∃ f ∈ l, f.path = q) ∧ q ∉ rem) := by
  constructor
  · rintro ⟨f, hf, hfq⟩
    obtain ⟨hfl, hpred⟩ := List.mem_filter.mp hf
    have hnr : f.path ∉ rem := by simpa using hpred
    exact ⟨⟨f, hfl, hfq⟩, hfq ▸ hnr⟩
  · rintro ⟨⟨f, hf, hfq⟩, hq⟩
    refine ⟨f, List.mem_filter.mpr ⟨hf, ?_⟩, hfq⟩
    simp only [decide_eq_true_eq]
    rw [hfq]
    exact hq

theorem foldl_upsertFile_eq (all : List FileEntry) :
    ∀ (paths : List String) (s : StoreState),
      paths.foldl (upsertFile all) s =
        { s with files := paths.foldl (upsertFileRow all) s.files } := by
  intro paths
  induction paths with
  | nil => intro s; rfl
  | cons p tl ih =>
    intro s
    rw [List.foldl_cons, List.foldl_cons, ih]
    rfl

theorem apply_file_updates_success (sq : Scalar → Scalar) (st : StoreState)
    (root_path : String) (all_files : List FileEntry) (chunks : List ChunkInput)
    (embeddings : List (List Scalar)) (new_files updated_files removed_files : List String)
    (embedding_model : String) (chunk_size chunk_overlap : Int) (now : String)
    (hlen : chunks.length = embeddings.length)
    (hmiss : (sortStrings ((new_files ++ updated_files).dedup)).filter
      (fun p => (fileSig all_files p).isNone) = []) :
    (apply_file_updates sq st root_path all_files chunks embeddings new_files
        updated_files removed_files embedding_model chunk_size chunk_overlap now).2 = none ∧
    (apply_file_updates sq st root_path all_files chunks embeddings new_files
        updated_files removed_files embedding_model chunk_size chunk_overlap now).1.files =
      (sortStrings ((new_files ++ updated_files).dedup)).foldl (upsertFileRow all_files)
        (st.files.filter (fun f => decide (f.path ∉ removed_files))) ∧
    (apply_file_updates sq st root_path all_files chunks embeddings new_files
        updated_files removed_files embedding_model chunk_size chunk_overlap now).1.metadata =
      metaSet (metaSet (metaSet (metaSet (metaSet st.metadata
        "indexed_root" root_path)
        "embedding_model" embedding_model)
        "chunk_size" (toString chunk_size))
        "chunk_overlap" (toString chunk_overlap))
        "indexed_at" now := by
  have hfid : st.files.filter (fun f => decide (f.path ∉ ([] : List String))) = st.files :=
    List.filter_eq_self.mpr (fun a _ => by simp)
  simp only [apply_file_updates]
  rw [if_neg (by simp [hlen]), if_neg (by simpa using hmiss)]
  refine ⟨rfl, ?_, ?_⟩
  · by_cases hrem : removed_files = [] <;>
      by_cases hch : sortStrings ((new_files ++ updated_files).dedup) = [] <;>
        by_cases hck : chunks = [] <;>
          simp [hrem, hch, hck, foldl_upsertFile_eq, hfid]
  · by_cases hrem : removed_files = [] <;>
      by_cases hch : sortStrings ((new_files ++ updated_files).dedup) = [] <;>
        by_cases hck : chunks = [] <;>
          simp [hrem, hch, hck, foldl_upsertFile_eq, hfid]

/-- The planner takes exactly one of its seven branches. -/
theorem plan_branches (st : StoreState) (root_path : String) (files : List FileEntry)
    (embedding_model : String) (chunk_size chunk_overlap : Int) (force : Bool) :
    plan_index_update st root_path files embedding_model chunk_size chunk_overlap force =
      rebuildPlan "forced reindex" (filePaths files) (filePaths st.files) ∨
    plan_index_update st root_path files embedding_model chunk_size chunk_overlap force =
      rebuildPlan "index has not been created yet" (filePaths files) (filePaths st.files) ∨
    plan_index_update st root_path files embedding_model chunk_size chunk_overlap force =
      rebuildPlan "indexed root changed" (filePaths files) (filePaths st.files) ∨
    plan_index_update st root_path files embedding_model chunk_size chunk_overlap force =
      rebuildPlan "embedding model changed" (filePaths files) (filePaths st.files) ∨
    plan_index_update st root_path files embedding_model chunk_size chunk_overlap force =
      rebuildPlan "chunk size changed" (filePaths files) (filePaths st.files) ∨
    plan_index_update st root_path files embedding_model chunk_size chunk_overlap force =
      rebuildPlan "chunk overlap changed" (filePaths files) (filePaths st.files) ∨
    (force = false ∧
      metaGet st.metadata "indexed_root" = some root_path ∧
      metaGet st.metadata "embedding_model" = some embedding_model ∧
      metaGet st.metadata "chunk_size" = some (toString chunk_size) ∧
      metaGet st.metadata "chunk_overlap" = some (toString chunk_overlap)) := by
  by_cases hf : force = true
  · subst hf
    exact Or.inl (plan_force st root_path files embedding_model chunk_size chunk_overlap)
  have hf' : force = false := by revert hf; cases force <;> simp
  rcases h2 : metaGet st.metadata "indexed_root" with _ | r
  · exact Or.inr (Or.inl (plan_no_meta st root_path files embedding_model chunk_size
      chunk_overlap force hf' h2))
  by_cases h3 : r = root_path
  · rw [h3] at h2
    by_cases h4 : metaGet st.metadata "embedding_model" = some embedding_model
    · by_cases h5 : metaGet st.metadata "chunk_size" = some (toString chunk_size)
      · by_cases h6 : metaGet st.metadata "chunk_overlap" = some (toString chunk_overlap)
        · exact Or.inr (Or.inr (Or.inr (Or.inr (Or.inr (Or.inr ⟨hf', by rw [h3], h4, h5, h6⟩)))))
        · exact Or.inr (Or.inr (Or.inr (Or.inr (Or.inr (Or.inl (plan_overlap_changed st
            root_path files embedding_model chunk_size chunk_overlap force hf' h2 h4 h5 h6))))))
      · exact Or.inr (Or.inr (Or.inr (Or.inr (Or.inl (plan_size_changed st root_path files
          embedding_model chunk_size chunk_overlap force hf' h2 h4 h5)))))
    · exact Or.inr (Or.inr (Or.inr (Or.inl (plan_model_changed st root_path files
        embedding_model chunk_size chunk_overlap force hf' h2 h4))))
  · exact Or.inr (Or.inr (Or.inl (plan_root_changed st root_path files embedding_model
      chunk_size chunk_overlap force hf' r h2 h3)))

/-- A plan that reports `needs_index = false` is exactly the no-op plan,
and only arises for an unforced call. -/
theorem plan_needs_false (st : StoreState) (root_path : String) (files : List FileEntry)
    (embedding_model : String) (chunk_size chunk_overlap : Int) (force : Bool)
    (h : (plan_index_update st root_path files embedding_model chunk_size chunk_overlap force).needs_index = false) :
    force = false ∧
    plan_index_update st root_path files embedding_model chunk_size chunk_overlap force =
      { needs_index := false, full_rebuild := false, reason := "index is current",
        new_files := [], updated_files := [], removed_files := [] } := by
  rcases plan_branches st root_path files embedding_model chunk_size chunk_overlap force with
    h1 | h1 | h1 | h1 | h1 | h1 | ⟨hf, hroot, hmodel, hcs, hco⟩
  · rw [h1] at h; exact absurd h (by simp [rebuildPlan])
  · rw [h1] at h; exact absurd h (by simp [rebuildPlan])
  · rw [h1] at h; exact absurd h (by simp [rebuildPlan])
  · rw [h1] at h; exact absurd h (by simp [rebuildPlan])
  · rw [h1] at h; exact absurd h (by simp [rebuildPlan])
  · rw [h1] at h; exact absurd h (by simp [rebuildPlan])
  · refine ⟨hf, ?_⟩
    rw [plan_diff st root_path files embedding_model chunk_size chunk_overlap force
      hf hroot hmodel hcs hco] at h ⊢
    revert h
    generalize sortStrings ((filePaths files).filter
      (fun p => decide (p ∉ filePaths st.files))) = N
    generalize sortStrings ((filePaths files).filter (fun p =>
      decide (p ∈ filePaths st.files ∧ fileSig files p ≠ fileSig st.files p))) = U
    generalize sortStrings ((filePaths st.files).filter
      (fun p => decide (p ∉ filePaths files))) = R
    intro h
    by_cases e1 : N = [] <;> by_cases e2 : U = [] <;> by_cases e3 : R = [] <;>
      simp [e1, e2, e3] at h ⊢

/-- A plan that is not a full rebuild arises only when `force` is off and
every configuration guard matches. -/
theorem plan_full_rebuild_false (st : StoreState) (root_path : String)
    (files : List FileEntry) (embedding_model : String) (chunk_size chunk_overlap : Int)
    (force : Bool) (h : (plan_index_update st root_path files embedding_model chunk_size chunk_overlap force).full_rebuild = false) :
    force = false ∧
    metaGet st.metadata "indexed_root" = some root_path ∧
    metaGet st.metadata "embedding_model" = some embedding_model ∧
    metaGet st.metadata "chunk_size" = some (toString chunk_size) ∧
    metaGet st.metadata "chunk_overlap" = some (toString chunk_overlap) := by
  rcases plan_branches st root_path files embedding_model chunk_size chunk_overlap force with
    h1 | h1 | h1 | h1 | h1 | h1 | hfacts
  · rw [h1] at h; exact absurd h (by simp [rebuildPlan])
  · rw [h1] at h; exact absurd h (by simp [rebuildPlan])
  · rw [h1] at h; exact absurd h (by simp [rebuildPlan])
  · rw [h1] at h; exact absurd h (by simp [rebuildPlan])
  · rw [h1] at h; exact absurd h (by simp [rebuildPlan])
  · rw [h1] at h; exact absurd h (by simp [rebuildPlan])
  · exact hfacts

/-- A store whose metadata matches the configuration and whose file table
agrees with the scanned catalog on keys and signatures plans a no-op. -/
theorem plan_current_of_matching (st1 : StoreState) (root_path : String)
    (files : List FileEntry) (embedding_model : String) (chunk_size chunk_overlap : Int)
    (hroot : metaGet st1.metadata "indexed_root" = some root_path)
    (hmodel : metaGet st1.metadata "embedding_model" = some embedding_model)
    (hcs : metaGet st1.metadata "chunk_size" = some (toString chunk_size))
    (hco : metaGet st1.metadata "chunk_overlap" = some (toString chunk_overlap))
    (hkeys1 : ∀ p, p ∈ filePaths files → p ∈ filePaths st1.files)
    (hkeys2 : ∀ p, p ∈ filePaths st1.files → p ∈ filePaths files)
    (hsig : ∀ p, p ∈ filePaths files → fileSig files p = fileSig st1.files p) :
    plan_index_update st1 root_path files embedding_model chunk_size chunk_overlap false =
      { needs_index := false, full_rebuild := false, reason := "index is current",
        new_files := [], updated_files := [], removed_files := [] } := by
  rw [plan_diff st1 root_path files embedding_model chunk_size chunk_overlap false rfl
    hroot hmodel hcs hco]
  have hN : (filePaths files).filter (fun p => decide (p ∉ filePaths st1.files)) = [] :=
    List.filter_eq_nil_iff.mpr (fun p hp => by simp [hkeys1 p hp])
  have hR : (filePaths st1.files).filter (fun p => decide (p ∉ filePaths files)) = [] :=
    List.filter_eq_nil_iff.mpr (fun p hp => by simp [hkeys2 p hp])
  have hU : (filePaths files).filter (fun p =>
      decide (p ∈ filePaths st1.files ∧ fileSig files p ≠ fileSig st1.files p)) = [] :=
    List.filter_eq_nil_iff.mpr (fun p hp => by simp [hsig p hp])
  rw [hN, hU, hR]
  simp [sortStrings_nil]

/-- `RAGrep.index` on a no-op plan returns immediately. -/
theorem ragIndex_of_noop (sq : Scalar → Scalar) (st : StoreState) (root_path : String)
    (file_records : List FileEntry) (process : List String → List ChunkInput)
    (embedQ : String → List Scalar) (embedding_model : String)
    (chunk_size chunk_overlap : Int) (now : String)
    (h : plan_index_update st root_path file_records embedding_model chunk_size
        chunk_overlap false =
      { needs_index := false, full_rebuild := false, reason := "index is current",
        new_files := [], updated_files := [], removed_files := [] }) :
    ragIndex sq st root_path file_records process embedQ embedding_model chunk_size
        chunk_overlap now false =
      { state := st,
        result := some
          { indexed := false, reason := "index is current",
            files := file_records.length, chunks := totalChunks st, chunks_indexed := 0,
            indexed_files := 0, new_files := [], updated_files := [], removed_files := [],
            full_rebuild := false },
        embedder_called := false } := by
  simp only [ragIndex]
  rw [h]
  rfl

theorem replace_index_noFail (sq : Scalar → Scalar) (st : StoreState) (root_path : String)
    (files : List FileEntry) (chunks : List ChunkInput) (embeddings : List (List Scalar))
    (embedding_model : String) (chunk_size chunk_overlap : Int) (now : String)
    (hlen : chunks.length = embeddings.length) :
    replace_index sq st root_path files chunks embeddings embedding_model chunk_size
        chunk_overlap now none =
      ((replaceIndexOps sq root_path files chunks embeddings embedding_model chunk_size
        chunk_overlap now).foldl (fun s f => f s) st, none) := by
  unfold replace_index
  rw [if_neg (by simp [hlen]), runTxn_none]

theorem ragIndex_rebuild_eval (sq : Scalar → Scalar) (st : StoreState) (root_path : String)
    (file_records : List FileEntry) (process : List String → List ChunkInput)
    (embedQ : String → List Scalar) (embedding_model : String)
    (chunk_size chunk_overlap : Int) (now : String) (force : Bool)
    (hni : (plan_index_update st root_path file_records embedding_model chunk_size chunk_overlap force).needs_index = true)
    (hfr : (plan_index_update st root_path file_records embedding_model chunk_size chunk_overlap force).full_rebuild = true) :
    (ragIndex sq st root_path file_records process embedQ embedding_model chunk_size chunk_overlap now force).state =
      { metadata := metaSet (metaSet (metaSet (metaSet (metaSet st.metadata
          "indexed_root" root_path)
          "embedding_model" embedding_model)
          "chunk_size" (toString chunk_size))
          "chunk_overlap" (toString chunk_overlap))
          "indexed_at" now
        files := file_records
        chunks := ((process (file_records.map (fun f => f.path))).zip
          (((process (file_records.map (fun f => f.path))).map (fun c => c.text)).map
            embedQ)).map (fun p => mkChunkRow sq p.1 p.2) } ∧
    (ragIndex sq st root_path file_records process embedQ embedding_model chunk_size chunk_overlap now force).result ≠ none := by
  simp only [ragIndex]
  rw [if_neg (by simp [hni]), if_pos hfr, if_pos hfr]
  rw [replace_index_noFail sq st root_path file_records _ _ embedding_model chunk_size
    chunk_overlap now (by simp)]
  rw [replaceIndexOps_foldl]
  exact ⟨rfl, Option.some_ne_none _⟩

/-- C7 (confirmed; the missing `DocumentProcessor.discover_path` /
`process_files` are taken as explicit oracles, modelled from the spec):
immediately after any `index` call — which in the model always succeeds —
a second `index` call on the same root with `force = false` and an
unchanged file catalog reports `needs_index = false` with reason
`"index is current"`, returns immediately without invoking the embedding
gateway, and leaves the store state (hence the stored file and chunk
counts) completely unchanged. -/
theorem C7_index_idempotent (sq : Scalar → Scalar) (st : StoreState) (root_path : String)
    (file_records : List FileEntry) (process : List String → List ChunkInput)
    (embedQ : String → List Scalar) (embedding_model : String)
    (chunk_size chunk_overlap : Int) (now now2 : String) (force : Bool) :
    (ragIndex sq st root_path file_records process embedQ embedding_model chunk_size chunk_overlap now force).result ≠ none ∧
    ragIndex sq (ragIndex sq st root_path file_records process embedQ embedding_model chunk_size chunk_overlap now force).state root_path file_records process embedQ embedding_model
        chunk_size chunk_overlap now2 false =
      { state := (ragIndex sq st root_path file_records process embedQ embedding_model chunk_size chunk_overlap now force).state
        result := some
          { indexed := false, reason := "index is current",
            files := file_records.length,
            chunks := totalChunks (ragIndex sq st root_path file_records process embedQ embedding_model chunk_size chunk_overlap now force).state,
            chunks_indexed := 0, indexed_files := 0, new_files := [], updated_files := [],
            removed_files := [], full_rebuild := false }
        embedder_called := false } := by
  by_cases hni : (plan_index_update st root_path file_records embedding_model chunk_size chunk_overlap force).needs_index = false
  · -- the first call is itself a no-op
    obtain ⟨hf, hplan⟩ := plan_needs_false st root_path file_records embedding_model
      chunk_size chunk_overlap force hni
    subst hf
    have h1 := ragIndex_of_noop sq st root_path file_records process embedQ embedding_model
      chunk_size chunk_overlap now hplan
    rw [h1]
    refine ⟨by simp, ?_⟩
    have h2 := ragIndex_of_noop sq st root_path file_records process embedQ embedding_model
      chunk_size chunk_overlap now2 hplan
    simpa using h2
  · simp only [Bool.not_eq_false] at hni
    by_cases hfr : (plan_index_update st root_path file_records embedding_model chunk_size chunk_overlap force).full_rebuild = true
    · -- full rebuild
      obtain ⟨hstB, hres⟩ := ragIndex_rebuild_eval sq st root_path file_records process
        embedQ embedding_model chunk_size chunk_overlap now force hni hfr
      refine ⟨hres, ?_⟩
      have hroot : metaGet (ragIndex sq st root_path file_records process embedQ embedding_model chunk_size chunk_overlap now force).state.metadata "indexed_root" = some root_path := by
        rw [hstB]; simp [metaGet_metaSet]
      have hmodel : metaGet (ragIndex sq st root_path file_records process embedQ embedding_model chunk_size chunk_overlap now force).state.metadata "embedding_model" =
          some embedding_model := by
        rw [hstB]; simp [metaGet_metaSet]
      have hcs : metaGet (ragIndex sq st root_path file_records process embedQ embedding_model chunk_size chunk_overlap now force).state.metadata "chunk_size" =
          some (toString chunk_size) := by
        rw [hstB]; simp [metaGet_metaSet]
      have hco : metaGet (ragIndex sq st root_path file_records process embedQ embedding_model chunk_size chunk_overlap now force).state.metadata "chunk_overlap" =
          some (toString chunk_overlap) := by
        rw [hstB]; simp [metaGet_metaSet]
      have hkeys1 : ∀ p, p ∈ filePaths file_records → p ∈ filePaths (ragIndex sq st root_path file_records process embedQ embedding_model chunk_size chunk_overlap now force).state.files := by
        intro p hp
        rw [hstB]
        exact hp
      have hkeys2 : ∀ p, p ∈ filePaths (ragIndex sq st root_path file_records process embedQ embedding_model chunk_size chunk_overlap now force).state.files → p ∈ filePaths file_records := by
        intro p hp
        rw [hstB] at hp
        exact hp
      have hsig : ∀ p, p ∈ filePaths file_records →
          fileSig file_records p = fileSig (ragIndex sq st root_path file_records process embedQ embedding_model chunk_size chunk_overlap now force).state.files p := by
        intro p _
        rw [hstB]
      exact ragIndex_of_noop sq (ragIndex sq st root_path file_records process embedQ embedding_model chunk_size chunk_overlap now force).state root_path file_records process embedQ
        embedding_model chunk_size chunk_overlap now2
        (plan_current_of_matching (ragIndex sq st root_path file_records process embedQ embedding_model chunk_size chunk_overlap now force).state root_path file_records embedding_model
          chunk_size chunk_overlap hroot hmodel hcs hco hkeys1 hkeys2 hsig)
    · -- incremental patch
      simp only [Bool.not_eq_true] at hfr
      obtain ⟨hf, hroot0, hmodel0, hcs0, hco0⟩ := plan_full_rebuild_false st root_path
        file_records embedding_model chunk_size chunk_overlap force hfr
      have hplan1 := plan_diff st root_path file_records embedding_model chunk_size
        chunk_overlap force hf hroot0 hmodel0 hcs0 hco0
      set N := sortStrings ((filePaths file_records).filter
        (fun p => decide (p ∉ filePaths st.files))) with hN
      set U := sortStrings ((filePaths file_records).filter (fun p =>
        decide (p ∈ filePaths st.files ∧
          fileSig file_records p ≠ fileSig st.files p))) with hU
      set R := sortStrings ((filePaths st.files).filter
        (fun p => decide (p ∉ filePaths file_records))) with hR
      have hchanged_sub : ∀ p ∈ sortStrings ((N ++ U).dedup),
          p ∈ filePaths file_records := by
        intro p hp
        rw [mem_sortStrings, List.mem_dedup, List.mem_append] at hp
        rcases hp with hp | hp
        · rw [hN, mem_sortStrings, List.mem_filter] at hp
          exact hp.1
        · rw [hU, mem_sortStrings, List.mem_filter] at hp
          exact hp.1
      have hsome : ∀ p ∈ sortStrings ((N ++ U).dedup),
          (fileSig file_records p).isSome = true := by
        intro p hp
        rw [fileSig_isSome_iff]
        exact (mem_filePaths _ _).mp (hchanged_sub p hp)
      have hmiss : (sortStrings ((N ++ U).dedup)).filter
          (fun p => (fileSig file_records p).isNone) = [] := by
        apply List.filter_eq_nil_iff.mpr
        intro p hp
        obtain ⟨sig, hsig2⟩ := Option.isSome_iff_exists.mp (hsome p hp)
        simp [hsig2]
      have happly := apply_file_updates_success sq st root_path file_records
        (process (N ++ U)) (((process (N ++ U)).map (fun c => c.text)).map embedQ)
        N U R embedding_model chunk_size chunk_overlap now (by simp) hmiss
      have hfacts : ∀ p, p ∈ filePaths file_records → p ∉ sortStrings ((N ++ U).dedup) →
          p ∈ filePaths st.files ∧ p ∉ R ∧
            fileSig file_records p = fileSig st.files p := by
        intro p hp hpch
        have hpN : p ∉ N := fun h => hpch (by
          rw [mem_sortStrings, List.mem_dedup, List.mem_append]
          exact Or.inl h)
        have hpU : p ∉ U := fun h => hpch (by
          rw [mem_sortStrings, List.mem_dedup, List.mem_append]
          exact Or.inr h)
        rw [hN, mem_sortStrings, List.mem_filter] at hpN
        rw [hU, mem_sortStrings, List.mem_filter] at hpU
        have hpdb : p ∈ filePaths st.files := by
          by_contra hcon
          exact hpN ⟨hp, by simpa using hcon⟩
        refine ⟨hpdb, ?_, ?_⟩
        · intro hcon
          rw [hR, mem_sortStrings, List.mem_filter] at hcon
          have h2 := hcon.2
          simp only [decide_eq_true_eq] at h2
          exact h2 hp
        · by_contra hcon
          apply hpU
          refine ⟨hp, ?_⟩
          simp only [decide_eq_true_eq]
          exact ⟨hpdb, hcon⟩
      have hRfact : ∀ p, p ∈ filePaths st.files → p ∉ R → p ∈ filePaths file_records := by
        intro p hp hpR
        by_contra hcon
        apply hpR
        rw [hR, mem_sortStrings, List.mem_filter]
        exact ⟨hp, by simpa using hcon⟩
      have hrag1 : (ragIndex sq st root_path file_records process embedQ embedding_model chunk_size chunk_overlap now force).state =
          (apply_file_updates sq st root_path file_records (process (N ++ U))
            (((process (N ++ U)).map (fun c => c.text)).map embedQ)
            N U R embedding_model chunk_size chunk_overlap now).1 ∧
          (ragIndex sq st root_path file_records process embedQ embedding_model chunk_size chunk_overlap now force).result ≠ none := by
        simp only [ragIndex, hplan1]
        rw [if_neg ?hc1, if_neg ?hc2, if_neg ?hc2]
        case hc2 => simp
        case hc1 =>
          rw [hplan1] at hni
          simpa using hni
        rcases hstep2 : apply_file_updates sq st root_path file_records (process (N ++ U))
            (((process (N ++ U)).map (fun c => c.text)).map embedQ)
            N U R embedding_model chunk_size chunk_overlap now with ⟨st1, err⟩
        have herr : err = none := by
          have h2 := happly.1
          rw [hstep2] at h2
          exact h2
        subst herr
        rw [hstep2]
        exact ⟨rfl, Option.some_ne_none _⟩
      refine ⟨hrag1.2, ?_⟩
      have hmeta1 : (ragIndex sq st root_path file_records process embedQ embedding_model chunk_size chunk_overlap now force).state.metadata =
          metaSet (metaSet (metaSet (metaSet (metaSet st.metadata
            "indexed_root" root_path)
            "embedding_model" embedding_model)
            "chunk_size" (toString chunk_size))
            "chunk_overlap" (toString chunk_overlap))
            "indexed_at" now := by
        rw [hrag1.1]
        exact happly.2.2
      have hfiles1 : (ragIndex sq st root_path file_records process embedQ embedding_model chunk_size chunk_overlap now force).state.files =
          (sortStrings ((N ++ U).dedup)).foldl (upsertFileRow file_records)
            (st.files.filter (fun f => decide (f.path ∉ R))) := by
        rw [hrag1.1]
        exact happly.2.1
      have hroot : metaGet (ragIndex sq st root_path file_records process embedQ embedding_model chunk_size chunk_overlap now force).state.metadata "indexed_root" = some root_path := by
        rw [hmeta1]; simp [metaGet_metaSet]
      have hmodel : metaGet (ragIndex sq st root_path file_records process embedQ embedding_model chunk_size chunk_overlap now force).state.metadata "embedding_model" =
          some embedding_model := by
        rw [hmeta1]; simp [metaGet_metaSet]
      have hcs : metaGet (ragIndex sq st root_path file_records process embedQ embedding_model chunk_size chunk_overlap now force).state.metadata "chunk_size" =
          some (toString chunk_size) := by
        rw [hmeta1]; simp [metaGet_metaSet]
      have hco : metaGet (ragIndex sq st root_path file_records process embedQ embedding_model chunk_size chunk_overlap now force).state.metadata "chunk_overlap" =
          some (toString chunk_overlap) := by
        rw [hmeta1]; simp [metaGet_metaSet]
      have hkeys1 : ∀ p, p ∈ filePaths file_records →
          p ∈ filePaths (ragIndex sq st root_path file_records process embedQ embedding_model chunk_size chunk_overlap now force).state.files := by
        intro p hp
        apply (mem_filePaths _ _).mpr
        rw [hfiles1, foldl_upsertFileRow_mem file_records _ _ p hsome]
        by_cases hpch : p ∈ sortStrings ((N ++ U).dedup)
        · exact Or.inr hpch
        · left
          rw [mem_filter_not_removed]
          obtain ⟨hpdb, hpR, _⟩ := hfacts p hp hpch
          exact ⟨(mem_filePaths _ _).mp hpdb, hpR⟩
      have hkeys2 : ∀ p, p ∈ filePaths (ragIndex sq st root_path file_records process embedQ embedding_model chunk_size chunk_overlap now force).state.files →
          p ∈ filePaths file_records := by
        intro p hp
        have hp2 := (mem_filePaths _ _).mp hp
        rw [hfiles1, foldl_upsertFileRow_mem file_records _ _ p hsome] at hp2
        rcases hp2 with hp2 | hp2
        · obtain ⟨hpdb, hpR⟩ := (mem_filter_not_removed st.files R p).mp hp2
          exact hRfact p ((mem_filePaths _ _).mpr hpdb) hpR
        · exact hchanged_sub p hp2
      have hsig : ∀ p, p ∈ filePaths file_records →
          fileSig file_records p = fileSig (ragIndex sq st root_path file_records process embedQ embedding_model chunk_size chunk_overlap now force).state.files p := by
        intro p hp
        rw [hfiles1]
        by_cases hpch : p ∈ sortStrings ((N ++ U).dedup)
        · rw [foldl_upsertFileRow_sig_mem file_records _ _ p hsome hpch]
        · rw [foldl_upsertFileRow_sig_not_mem file_records _ _ p hpch]
          obtain ⟨_, hpR, hsigeq⟩ := hfacts p hp hpch
          rw [fileSig_filter_not_removed st.files R p hpR]
          exact hsigeq
      exact ragIndex_of_noop sq (ragIndex sq st root_path file_records process embedQ embedding_model chunk_size chunk_overlap now force).state root_path file_records process embedQ
        embedding_model chunk_size chunk_overlap now2
        (plan_current_of_matching (ragIndex sq st root_path file_records process embedQ embedding_model chunk_size chunk_overlap now force).state root_path file_records embedding_model
          chunk_size chunk_overlap hroot hmodel hcs hco hkeys1 hkeys2 hsig)

/-- C7, witness at a concrete instance. -/
theorem C7_witness :
    (ragIndex id (⟨[], [], []⟩ : StoreState) "r" [] (fun _ => []) (fun _ => []) "m" 3 1
        "t1" true).result ≠ none ∧
    ragIndex id (ragIndex id (⟨[], [], []⟩ : StoreState) "r" [] (fun _ => []) (fun _ => [])
        "m" 3 1 "t1" true).state "r" [] (fun _ => []) (fun _ => []) "m" 3 1 "t2" false =
      { state := (ragIndex id (⟨[], [], []⟩ : StoreState) "r" [] (fun _ => [])
          (fun _ => []) "m" 3 1 "t1" true).state
        result := some
          { indexed := false, reason := "index is current", files := 0,
            chunks := totalChunks (ragIndex id (⟨[], [], []⟩ : StoreState) "r" []
              (fun _ => []) (fun _ => []) "m" 3 1 "t1" true).state,
            chunks_indexed := 0, indexed_files := 0, new_files := [], updated_files := [],
            removed_files := [], full_rebuild := false }
        embedder_called := false } :=
  C7_index_idempotent id (⟨[], [], []⟩ : StoreState) "r" [] (fun _ => []) (fun _ => [])
    "m" 3 1 "t1" "t2" true

end RAGrep
